import Mathlib

/-!
# Akisa container: binding registration and resolution

A shallow embedding of `container.go` (package `container`).

* Go `interface{}` values are the tagged union `Value`.
* The three Go maps of `Container` are total functions into `Option`.
* A Go call that may return normally or panic is an `Outcome`: it carries the
  container as it is when the call ends, together with the log of factory calls
  made so far.  The third outcome, `diverge`, is a call that has not ended: the
  recursion `Make → Invoke → extractParameters → Make` running out of the fuel it
  was given, or a factory body that never returns.
* The packages `internal/pkg/utils` and `internal/pkg/binding` and the error
  values of the package are not part of the source tree under study; they are
  modelled from the specification and marked as such.
* Factories are host functions, looked up by the name of the function value, and
  there are two embeddings of them.  In `Host` a factory is a function of its
  argument list: it returns, and it does so without calling the container.  In
  `Reentrant.Host` the body of a factory is a program that may call the methods of
  the container while it runs and need not return, as a Go closure holding the
  container can.  `Make`, `Invoke` and `Get` are embedded for both; on the factories
  of the first kind the two embeddings agree (`Make_ofPure`, `Invoke_ofPure`,
  `Get_ofPure`).  A statement over `Host` says nothing about a factory that calls
  the container; where that matters the statement is made over `Reentrant.Host`.
-/

namespace Akisa

/-- Go values that reach the container as `interface{}`: abstracts, concretes,
parameters and produced instances. -/
inductive Value where
  /-- The nil interface value. -/
  | nil : Value
  /-- A Go string: a plain name when used as an abstract, a constant otherwise. -/
  | str (s : String) : Value
  /-- An integer constant. -/
  | int (n : Int) : Value
  /-- A type descriptor (`reflect.Type`), as produced by `spec.In(index)`. -/
  | typ (name : String) : Value
  /-- An interface-shaped descriptor: the interface name and its required methods. -/
  | iface (name : String) (methods : List String) : Value
  /-- A struct value: its type name, the method set of the type, and its fields. -/
  | struct (name : String) (methods : List String) (fields : List (String × Value)) : Value
  /-- A function value: its name and the names of its declared parameter types. -/
  | func (name : String) (params : List String) : Value

/-- The Go test `v == nil` on an interface value. -/
def Value.isNil : Value → Bool
  | .nil => true
  | _ => false

/-- The field `f` of a struct value, when it has one. -/
def Value.field (f : String) : Value → Option Value
  | .struct _ _ fields => fields.lookup f
  | _ => none

/-- The method set of a value: only struct types carry methods here. -/
def Value.methods : Value → List String
  | .struct _ ms _ => ms
  | _ => []

/-- The host application's functions, each a function of its argument list: the value
that the function named `name` returns on the arguments. Such a factory always returns
and never calls the container; `Reentrant.Host` is the embedding without that
restriction. -/
abbrev Host := String → List Value → Value

/-- The ghost log of factory calls: the function value called and its arguments,
oldest call first. -/
abbrev Log := List (Value × List Value)

/-- Whether two values are the same function value: same name and same declared
parameter types. -/
def Value.sameFunc : Value → Value → Bool
  | .func n ps, .func m qs => n == m && ps == qs
  | _, _ => false

/-- The number of calls of the function value `f` recorded in a log. -/
def callsOf (f : Value) (log : Log) : Nat :=
  (log.filter (fun e => f.sameFunc e.1)).length

namespace utils

/-- Modelled from the spec: `utils.GetKey` is not in the source tree. The canonical
string identity of an abstract descriptor: a plain string is its own key, and an
interface shape, a struct shape and a type descriptor are keyed by the type name,
so that descriptors of the same abstraction share one key. -/
def GetKey : Value → String
  | .nil => "<nil>"
  | .str s => s
  | .int _ => "int"
  | .typ name => name
  | .iface name _ => name
  | .struct name _ _ => name
  | .func _ params => "func(" ++ ", ".intercalate params ++ ")"

/-- Modelled from the spec: `utils.IsFunc` is not in the source tree. True when the
value is callable (factory-shaped). -/
def IsFunc : Value → Bool
  | .func _ _ => true
  | _ => false

/-- Modelled from the spec: `utils.IsInterface` is not in the source tree. True when
the abstract denotes an interface shape. -/
def IsInterface : Value → Bool
  | .iface _ _ => true
  | _ => false

/-- Modelled from the spec: `utils.IsStruct` is not in the source tree. True when the
abstract denotes a concrete struct shape. -/
def IsStruct : Value → Bool
  | .struct _ _ _ => true
  | _ => false

/-- Modelled from the spec: `utils.IsImplements` is not in the source tree. The
concrete implements the interface when it has every method the interface requires. -/
def IsImplements (concrete abstract : Value) : Bool :=
  match abstract with
  | .iface _ required => required.all (fun m => concrete.methods.contains m)
  | _ => false

end utils

/-- Modelled from the spec: `reflect.TypeOf(abstract)` with `NumIn` and `In`: the
declared parameter types of a function value, in declaration order, each as a type
descriptor. -/
def reflectIn : Value → List Value
  | .func _ params => params.map Value.typ
  | _ => []

namespace binding

/-- Modelled from the spec: `binding.Binding` is not in the source tree. A producer
descriptor: the stored value or factory, and the shared flag. -/
structure Binding where
  Concrete : Value
  Shared : Bool

/-- Modelled from the spec: `binding.New` builds the descriptor from its two parts. -/
def New (concrete : Value) (shared : Bool) : Binding :=
  { Concrete := concrete, Shared := shared }

/-- Modelled from the spec: `Binding.ConcreteIsFunc` tells whether the stored concrete
is a factory. -/
def Binding.ConcreteIsFunc (b : Binding) : Bool :=
  utils.IsFunc b.Concrete

/-- Modelled from the spec: `Binding.GetConcrete`. A factory is called with the given
parameters (the call is appended to the log); a concrete that is not callable is
returned as it is and the parameters are ignored. -/
def Binding.GetConcrete (h : Host) (b : Binding) (parameters : List Value) (log : Log) :
    Value × Log :=
  match b.Concrete with
  | .func name params => (h name parameters, log ++ [(Value.func name params, parameters)])
  | v => (v, log)

end binding

open binding (Binding)



/-- Modelled from the spec: the error values of the package are declared outside the
source tree; the five kinds of the error taxonomy. -/
inductive Error where
  | ErrInterfaceMismatch : Error
  | ErrAbstractStructConcreteNotNil : Error
  | ErrAliasAbstractMissing : Error
  | ErrAbstractNotInvocable : Error
  | BindingMissingError (abstract : Value) : Error

/-- The `Container` struct: three maps keyed by strings. -/
structure Container where
  bindings : String → Option Binding
  shared : String → Option Value
  aliases : String → Option String

/-- The Go map write `m[k] = v`. -/
def mapSet {β : Type} (m : String → Option β) (k : String) (v : β) : String → Option β :=
  fun k' => if k' = k then some v else m k'

/-- The way a call on the container ends. -/
inductive Outcome (α : Type) where
  /-- Normal return of `a`, leaving the container `c` and the call log `log`. -/
  | ret (a : α) (c : Container) (log : Log) : Outcome α
  /-- A panic with error `e`; `c` and `log` are as they were when it was raised. -/
  | panic (e : Error) (c : Container) (log : Log) : Outcome α
  /-- The call has not ended: the recursion did not finish within the fuel, or a
  factory body never returns. -/
  | diverge : Outcome α

/-- The container and log a call ends with, when it ends. -/
def Outcome.final {α : Type} : Outcome α → Option (Container × Log)
  | .ret _ c log => some (c, log)
  | .panic _ c log => some (c, log)
  | .diverge => none

/-- The value a call returned, when it returned normally. -/
def Outcome.returned {α : Type} : Outcome α → Option α
  | .ret a _ _ => some a
  | _ => none

/-- The error a call panicked with, when it panicked. -/
def Outcome.panicked {α : Type} : Outcome α → Option Error
  | .panic e _ _ => some e
  | _ => none

/-- `New`: all three maps empty. -/
def New : Container :=
  { bindings := fun _ => none, shared := fun _ => none, aliases := fun _ => none }

/-- `Container.provide`. -/
def provide (c : Container) (log : Log) (abstract concrete : Value) (shared : Bool) :
    Outcome Unit :=
  if utils.IsInterface abstract && !utils.IsImplements concrete abstract then
    .panic .ErrInterfaceMismatch c log
  else if utils.IsStruct abstract then
    if !concrete.isNil then
      .panic .ErrAbstractStructConcreteNotNil c log
    else
      .ret () { c with bindings := mapSet c.bindings (utils.GetKey abstract)
                                     (binding.New abstract shared) } log
  else
    .ret () { c with bindings := mapSet c.bindings (utils.GetKey abstract)
                                   (binding.New concrete shared) } log

/-- `Container.Bind`. -/
def Bind (c : Container) (log : Log) (abstract concrete : Value) : Outcome Unit :=
  provide c log abstract concrete false

/-- `Container.BindShared`. -/
def BindShared (c : Container) (log : Log) (abstract concrete : Value) : Outcome Unit :=
  provide c log abstract concrete true

/-- `Container.Singleton`. -/
def Singleton (c : Container) (log : Log) (abstract concrete : Value) : Outcome Unit :=
  BindShared c log abstract concrete

/-- `Container.getBinding`: one alias hop, then a single read of the binding table. -/
def getBinding (c : Container) (abstract : Value) : Except Error Binding :=
  let key := utils.GetKey abstract
  let key := match c.aliases key with
    | some target => target
    | none => key
  match c.bindings key with
  | some b => .ok b
  | none => .error (.BindingMissingError abstract)

/-- `Container.Alias`. -/
def Alias (c : Container) (log : Log) (abstract : Value) (aliasName : String) : Outcome Unit :=
  match getBinding c abstract with
  | .error _ => .panic .ErrAliasAbstractMissing c log
  | .ok _ =>
    .ret () { c with aliases := mapSet c.aliases (utils.GetKey (.str aliasName))
                                  (utils.GetKey abstract) } log

/-- The type of `c.Make(abstract)` called without parameters, as the recursive calls
of `extractParameters` see it. -/
abbrev MakeFn := Container → Log → Value → Outcome (Value × Option Error)

/-- The loop of `Container.extractParameters` over the declared parameter types still
to resolve; `args` holds the arguments resolved so far. -/
def extractParameters.loop (make : MakeFn) :
    List Value → Container → Log → List Value → Outcome (List Value)
  | [], c, log, args => .ret args c log
  | t :: ts, c, log, args =>
    match make c log t with
    | .ret (arg, none) c1 log1 => extractParameters.loop make ts c1 log1 (args ++ [arg])
    | .ret (_, some err) c1 log1 => .panic err c1 log1
    | .panic e c1 log1 => .panic e c1 log1
    | .diverge => .diverge

/-- `Container.extractParameters`, with the recursive `c.Make` passed in. -/
def extractParameters (make : MakeFn) (c : Container) (log : Log) (abstract : Value) :
    Outcome (List Value) :=
  extractParameters.loop make (reflectIn abstract) c log []

/-- The body of `Container.Invoke`, with the recursive `c.Make` passed in. -/
def InvokeWith (h : Host) (make : MakeFn) (c : Container) (log : Log) (abstract : Value) :
    Outcome Value :=
  let b := binding.New abstract false
  if b.ConcreteIsFunc == false then
    .panic .ErrAbstractNotInvocable c log
  else
    match extractParameters make c log b.Concrete with
    | .ret parameters c1 log1 =>
      let r := b.GetConcrete h parameters log1
      .ret r.1 c1 r.2
    | .panic e c1 log1 => .panic e c1 log1
    | .diverge => .diverge

/-- `Container.Make`. Each level of the recursion through `Invoke` uses one unit of
fuel. -/
def Make (h : Host) : Nat → Container → Log → Value → List Value →
    Outcome (Value × Option Error)
  | 0, _, _, _, _ => .diverge
  | fuel + 1, c, log, abstract, parameters =>
    if utils.IsFunc abstract then
      match InvokeWith h (fun c1 log1 a => Make h fuel c1 log1 a []) c log abstract with
      | .ret v c1 log1 => .ret (v, none) c1 log1
      | .panic e c1 log1 => .panic e c1 log1
      | .diverge => .diverge
    else
      match c.shared (utils.GetKey abstract) with
      | some shared => .ret (shared, none) c log
      | none =>
        match getBinding c abstract with
        | .error err => .ret (.nil, some err) c log
        | .ok b =>
          let r : Outcome Value :=
            if b.ConcreteIsFunc && parameters.isEmpty then
              InvokeWith h (fun c1 log1 a => Make h fuel c1 log1 a []) c log b.Concrete
            else
              let r := b.GetConcrete h parameters log
              .ret r.1 c r.2
          match r with
          | .ret concrete c1 log1 =>
            if b.Shared then
              .ret (concrete, none)
                { c1 with shared := mapSet c1.shared (utils.GetKey abstract) concrete } log1
            else
              .ret (concrete, none) c1 log1
          | .panic e c1 log1 => .panic e c1 log1
          | .diverge => .diverge

/-- `Container.Invoke`. -/
def Invoke (h : Host) (fuel : Nat) (c : Container) (log : Log) (abstract : Value) :
    Outcome Value :=
  InvokeWith h (fun c1 log1 a => Make h fuel c1 log1 a []) c log abstract

/-- `Container.Get`. -/
def Get (h : Host) (fuel : Nat) (c : Container) (log : Log) (abstract : Value) :
    Outcome Value :=
  match Make h fuel c log abstract [] with
  | .ret (_, some err) c1 log1 => .panic err c1 log1
  | .ret (concrete, none) c1 log1 => .ret concrete c1 log1
  | .panic e c1 log1 => .panic e c1 log1
  | .diverge => .diverge

/-- `Container.Has`. -/
def Has (c : Container) (log : Log) (abstract : Value) : Outcome Bool :=
  match getBinding c abstract with
  | .ok _ => .ret true c log
  | .error _ => .ret false c log

/-- One call on the public surface of the container. -/
inductive Op where
  | Bind (abstract concrete : Value) : Op
  | BindShared (abstract concrete : Value) : Op
  | Singleton (abstract concrete : Value) : Op
  | Alias (abstract : Value) (aliasName : String) : Op
  | Make (abstract : Value) (parameters : List Value) : Op
  | Get (abstract : Value) : Op
  | Has (abstract : Value) : Op
  | Invoke (abstract : Value) : Op

/-- The container and log after one call, however it ended; `none` when it did not
end within the fuel. -/
def Op.run (h : Host) (fuel : Nat) (c : Container) (log : Log) : Op → Option (Container × Log)
  | .Bind a v => (Akisa.Bind c log a v).final
  | .BindShared a v => (Akisa.BindShared c log a v).final
  | .Singleton a v => (Akisa.Singleton c log a v).final
  | .Alias a name => (Akisa.Alias c log a name).final
  | .Make a ps => (Akisa.Make h fuel c log a ps).final
  | .Get a => (Akisa.Get h fuel c log a).final
  | .Has a => (Akisa.Has c log a).final
  | .Invoke a => (Akisa.Invoke h fuel c log a).final

/-- The container and log after a sequence of calls from the given start; a call that
panics leaves the state it had reached and the sequence goes on. -/
def runOps (h : Host) (fuel : Nat) : List Op → Container → Log → Option (Container × Log)
  | [], c, log => some (c, log)
  | op :: ops, c, log =>
    match op.run h fuel c log with
    | some (c1, log1) => runOps h fuel ops c1 log1
    | none => none

/-- The container states reachable from `New()` by calls that end. -/
def Reachable (h : Host) (c : Container) : Prop :=
  ∃ (fuel : Nat) (ops : List Op) (log : Log), runOps h fuel ops New [] = some (c, log)

/-- The calls `Make(abstract, ps)` made one after the other, one for each parameter
list `ps`: the results in order and the final container and log, provided every call
returns normally. -/
def makeEach (h : Host) (fuel : Nat) (abstract : Value) :
    List (List Value) → Container → Log →
      Option (List (Value × Option Error) × Container × Log)
  | [], c, log => some ([], c, log)
  | ps :: rest, c, log =>
    match Make h fuel c log abstract ps with
    | .ret r c1 log1 =>
      match makeEach h fuel abstract rest c1 log1 with
      | some (rs, c2, log2) => some (r :: rs, c2, log2)
      | none => none
    | _ => none

/-- A host used in the worked examples: `NewService` builds a `Service` from one
argument, `NewDep` produces the constant 7, every other function produces nil. -/
def exampleHost : Host := fun name args =>
  match name, args with
  | "NewService", [d] => .struct "Service" [] [("Dep", d)]
  | "NewDep", _ => .int 7
  | _, _ => .nil

/-! ## Predicates used in the statements, and example containers -/

/-- What a resolution may change: the binding table and the alias table stay as they
are, a shared-cache entry differs only under the key of an abstract that is not
callable and whose lookup gives a shared binding, and the call log only grows at its
end. -/
def Frame (c : Container) (log : Log) (c1 : Container) (log1 : Log) : Prop :=
  c1.bindings = c.bindings ∧ c1.aliases = c.aliases ∧
  (∀ k, c1.shared k ≠ c.shared k →
    ∃ A b, utils.GetKey A = k ∧ utils.IsFunc A = false ∧ getBinding c A = .ok b ∧
      b.Shared = true) ∧
  ∃ l, log1 = log ++ l

/-- A set of keys closed under one dependency step: each key of the set looks up a
binding whose concrete is a function declaring a parameter whose type key is again in
the set. -/
def CycleSet (c : Container) (D : String → Prop) : Prop :=
  ∀ k, D k → ∃ name params sh,
    getBinding c (.typ k) = .ok ⟨.func name params, sh⟩ ∧ ∃ p, p ∈ params ∧ D p

/-- The keys of the set have no shared-cache entry. -/
def Uncached (c : Container) (D : String → Prop) : Prop :=
  ∀ k, D k → c.shared k = none

/-- The keys whose resolution is under way while the abstract with key `cur` is being
made: each pending key looks up a binding whose concrete is a function declaring a
parameter whose type key is pending or is `cur`. -/
def Pending (c : Container) (Q : String → Prop) (cur : String) : Prop :=
  ∀ k, Q k → ∃ name params sh,
    getBinding c (.typ k) = .ok ⟨.func name params, sh⟩ ∧
      ∃ p, p ∈ params ∧ (Q p ∨ p = cur)

/-- The container after `Bind("Dep", 7)` on a fresh container. -/
def depBound : Container :=
  { New with bindings := mapSet New.bindings "Dep" ⟨.int 7, false⟩ }

/-- The container after `BindShared("Dep", 7)` on a fresh container. -/
def depShared : Container :=
  { New with bindings := mapSet New.bindings "Dep" ⟨.int 7, true⟩ }

/-- The container `depShared` once 7 is cached under "Dep". -/
def depSharedCached : Container :=
  { depShared with shared := mapSet depShared.shared "Dep" (.int 7) }

/-- The container `depBound` after `BindShared("svc", NewService)`. -/
def svcShared : Container :=
  { depBound with bindings := mapSet depBound.bindings "svc"
                                ⟨.func "NewService" ["Dep"], true⟩ }

/-- The container after `Bind("W", 1)`, `Alias("W", "Z")`, `Alias("Z", "X")` on a fresh
container: "X" is an alias of the alias "Z". -/
def aliasOfAlias : Container :=
  { bindings := mapSet New.bindings "W" ⟨.int 1, false⟩,
    shared := New.shared,
    aliases := mapSet (mapSet New.aliases "Z" "W") "X" "Z" }

/-- The container `aliasOfAlias` after `Bind("X", 2)`. -/
def aliasOfAliasBound : Container :=
  { aliasOfAlias with bindings := mapSet aliasOfAlias.bindings "X" ⟨.int 2, false⟩ }

/-- The calls `Make(T1)`, ..., `Make(Tn)` made in this order, each from the state the
call before it left, each returning a value and no error: `vs` holds the n values in
the order of the types, and the last two arguments are the container and the call log
after the last call. -/
inductive ResolvedInOrder (make : MakeFn) :
    List Value → Container → Log → List Value → Container → Log → Prop where
  | done (c : Container) (log : Log) : ResolvedInOrder make [] c log [] c log
  | step (t : Value) (ts : List Value) (c : Container) (log : Log) (v : Value)
      (c1 : Container) (log1 : Log) (vs : List Value) (c2 : Container) (log2 : Log) :
      make c log t = .ret (v, none) c1 log1 →
      ResolvedInOrder make ts c1 log1 vs c2 log2 →
      ResolvedInOrder make (t :: ts) c log (v :: vs) c2 log2

/-- The dependency relation of a container state: the key `k` depends on the key `p`
when the lookup of `k` (one alias hop, then the binding table) gives a binding whose
concrete is a function declaring a parameter of the type keyed `p`. -/
def DependsOn (c : Container) (k p : String) : Prop :=
  ∃ name params sh,
    getBinding c (.typ k) = .ok ⟨.func name params, sh⟩ ∧ p ∈ params

/-- Every alias names a key that has a binding: what the guard of `Alias`
(`ErrAliasAbstractMissing`) is there to keep. -/
def AliasesBound (c : Container) : Prop :=
  ∀ k t, c.aliases k = some t → (c.bindings t).isSome = true

/-! ## Factories that call the container

A Go factory holds the container and can call its methods while it runs, and it need
not return. `Reentrant` embeds `Make`, `Invoke` and `Get` for such factories: a factory
body is a `Prog`, and the fuel bounds how deep calls of `Make` and `Invoke` nest. A
factory that is a function of its arguments is the body `Prog.done`, and for those the
two embeddings agree (`Make_ofPure`). -/

namespace Reentrant

/-- The body of a Go factory, as far as the container can tell: it returns a value,
panics, never returns, or calls a method of the container and goes on with what the
call gave back. A panic of the called method ends the body with that panic. -/
inductive Prog where
  /-- Return `v`. -/
  | done (v : Value) : Prog
  /-- Panic with `e`. -/
  | fail (e : Error) : Prog
  /-- Never return. -/
  | spin : Prog
  /-- Call `c.Make(abstract, parameters...)`. -/
  | make (abstract : Value) (parameters : List Value)
      (next : Value → Option Error → Prog) : Prog
  /-- Call `c.Get(abstract)`. -/
  | get (abstract : Value) (next : Value → Prog) : Prog
  /-- Call `c.Invoke(abstract)`. -/
  | invoke (abstract : Value) (next : Value → Prog) : Prog
  /-- Call `c.Has(abstract)`. -/
  | has (abstract : Value) (next : Bool → Prog) : Prog
  /-- Call `c.Bind(abstract, concrete)`, or `c.BindShared` when `shared` is true. -/
  | provide (abstract concrete : Value) (shared : Bool) (next : Prog) : Prog
  /-- Call `c.Alias(abstract, aliasName)`. -/
  | aliasAs (abstract : Value) (aliasName : String) (next : Prog) : Prog

/-- The host application's functions: the body of the function value named `name`
when it is called with an argument list. -/
abbrev Host := String → List Value → Prog

/-- The factory that is a function of its arguments: its body returns at once. -/
def ofPure (p : Akisa.Host) : Host :=
  fun name args => .done (p name args)

/-- The two recursive methods of the container, as the code running one level down
calls them. -/
structure Api where
  make : Container → Log → Value → List Value → Outcome (Value × Option Error)
  invoke : Container → Log → Value → Outcome Value

/-- Running a factory body against the container. -/
def runProg (api : Api) : Prog → Container → Log → Outcome Value
  | .done v, c, log => .ret v c log
  | .fail e, c, log => .panic e c log
  | .spin, _, _ => .diverge
  | .make a ps next, c, log =>
    match api.make c log a ps with
    | .ret r c1 log1 => runProg api (next r.1 r.2) c1 log1
    | .panic e c1 log1 => .panic e c1 log1
    | .diverge => .diverge
  | .get a next, c, log =>
    match api.make c log a [] with
    | .ret (v, none) c1 log1 => runProg api (next v) c1 log1
    | .ret (_, some err) c1 log1 => .panic err c1 log1
    | .panic e c1 log1 => .panic e c1 log1
    | .diverge => .diverge
  | .invoke a next, c, log =>
    match api.invoke c log a with
    | .ret v c1 log1 => runProg api (next v) c1 log1
    | .panic e c1 log1 => .panic e c1 log1
    | .diverge => .diverge
  | .has a next, c, log =>
    match Akisa.Has c log a with
    | .ret b c1 log1 => runProg api (next b) c1 log1
    | .panic e c1 log1 => .panic e c1 log1
    | .diverge => .diverge
  | .provide a v sh next, c, log =>
    match Akisa.provide c log a v sh with
    | .ret _ c1 log1 => runProg api next c1 log1
    | .panic e c1 log1 => .panic e c1 log1
    | .diverge => .diverge
  | .aliasAs a name next, c, log =>
    match Akisa.Alias c log a name with
    | .ret _ c1 log1 => runProg api next c1 log1
    | .panic e c1 log1 => .panic e c1 log1
    | .diverge => .diverge

/-- Modelled from the spec: `Binding.GetConcrete` for factories that may call the
container. A factory is called with the given parameters (the call is appended to the
log when it starts) and its body runs against the container; a concrete that is not
callable is returned as it is. -/
def GetConcrete (h : Host) (api : Api) (b : Binding) (parameters : List Value)
    (c : Container) (log : Log) : Outcome Value :=
  match b.Concrete with
  | .func name params =>
    runProg api (h name parameters) c (log ++ [(Value.func name params, parameters)])
  | v => .ret v c log

/-- The body of `Container.Invoke`, the nested calls going through `api`. -/
def InvokeWith (h : Host) (api : Api) (c : Container) (log : Log) (abstract : Value) :
    Outcome Value :=
  let b := binding.New abstract false
  if b.ConcreteIsFunc == false then
    .panic .ErrAbstractNotInvocable c log
  else
    match extractParameters (fun c1 log1 a => api.make c1 log1 a []) c log b.Concrete with
    | .ret parameters c1 log1 => GetConcrete h api b parameters c1 log1
    | .panic e c1 log1 => .panic e c1 log1
    | .diverge => .diverge

/-- The body of `Container.Make`, the nested calls going through `api`. -/
def MakeWith (h : Host) (api : Api) (c : Container) (log : Log) (abstract : Value)
    (parameters : List Value) : Outcome (Value × Option Error) :=
  if utils.IsFunc abstract then
    match InvokeWith h api c log abstract with
    | .ret v c1 log1 => .ret (v, none) c1 log1
    | .panic e c1 log1 => .panic e c1 log1
    | .diverge => .diverge
  else
    match c.shared (utils.GetKey abstract) with
    | some shared => .ret (shared, none) c log
    | none =>
      match getBinding c abstract with
      | .error err => .ret (.nil, some err) c log
      | .ok b =>
        let r : Outcome Value :=
          if b.ConcreteIsFunc && parameters.isEmpty then
            InvokeWith h api c log b.Concrete
          else
            GetConcrete h api b parameters c log
        match r with
        | .ret concrete c1 log1 =>
          if b.Shared then
            .ret (concrete, none)
              { c1 with shared := mapSet c1.shared (utils.GetKey abstract) concrete } log1
          else
            .ret (concrete, none) c1 log1
        | .panic e c1 log1 => .panic e c1 log1
        | .diverge => .diverge

/-- The methods with `fuel` levels of nesting left: none at level 0. -/
def level (h : Host) : Nat → Api
  | 0 => { make := fun _ _ _ _ => .diverge, invoke := fun _ _ _ => .diverge }
  | fuel + 1 => { make := MakeWith h (level h fuel), invoke := InvokeWith h (level h fuel) }

/-- `Container.Make`, for factories that may call the container. -/
def Make (h : Host) (fuel : Nat) (c : Container) (log : Log) (abstract : Value)
    (parameters : List Value) : Outcome (Value × Option Error) :=
  (level h fuel).make c log abstract parameters

/-- `Container.Invoke`, for factories that may call the container. -/
def Invoke (h : Host) (fuel : Nat) (c : Container) (log : Log) (abstract : Value) :
    Outcome Value :=
  (level h fuel).invoke c log abstract

/-- `Container.Get`, for factories that may call the container. -/
def Get (h : Host) (fuel : Nat) (c : Container) (log : Log) (abstract : Value) :
    Outcome Value :=
  match Make h fuel c log abstract [] with
  | .ret (_, some err) c1 log1 => .panic err c1 log1
  | .ret (concrete, none) c1 log1 => .ret concrete c1 log1
  | .panic e c1 log1 => .panic e c1 log1
  | .diverge => .diverge

/-- The container and log after one call of the public surface, however it ended;
`none` when it did not end within the fuel. -/
def runOp (h : Host) (fuel : Nat) (c : Container) (log : Log) : Op → Option (Container × Log)
  | .Bind a v => (Akisa.Bind c log a v).final
  | .BindShared a v => (Akisa.BindShared c log a v).final
  | .Singleton a v => (Akisa.Singleton c log a v).final
  | .Alias a name => (Akisa.Alias c log a name).final
  | .Make a ps => (Make h fuel c log a ps).final
  | .Get a => (Get h fuel c log a).final
  | .Has a => (Akisa.Has c log a).final
  | .Invoke a => (Invoke h fuel c log a).final

/-- The container and log after a sequence of calls from the given start; a call that
panics leaves the state it had reached and the sequence goes on. -/
def runOps (h : Host) (fuel : Nat) : List Op → Container → Log → Option (Container × Log)
  | [], c, log => some (c, log)
  | op :: ops, c, log =>
    match runOp h fuel c log op with
    | some (c1, log1) => runOps h fuel ops c1 log1
    | none => none

/-- The calls `Make(abstract, ps)` made one after the other, one for each parameter
list `ps`: the results in order and the final container and log, provided every call
returns. -/
def makeEach (h : Host) (fuel : Nat) (abstract : Value) :
    List (List Value) → Container → Log →
      Option (List (Value × Option Error) × Container × Log)
  | [], c, log => some ([], c, log)
  | ps :: rest, c, log =>
    match Make h fuel c log abstract ps with
    | .ret r c1 log1 =>
      match makeEach h fuel abstract rest c1 log1 with
      | some (rs, c2, log2) => some (r :: rs, c2, log2)
      | none => none
    | _ => none

/-- Factories used in the worked examples. `F` asks `Has("started")`: when the answer
is yes it returns 42, otherwise it calls `Bind("started", 1)`, reads `Get("A")` and
returns a `Seen` holding what it read. `G` returns `Get("config")`. `a` returns
`Get("b")` and `b` returns `Get("a")`. `forever` never returns. Every other function
returns nil. -/
def callingHost : Host := fun name _ =>
  match name with
  | "F" =>
    .has (.str "started") (fun started =>
      if started then .done (.int 42)
      else
        .provide (.str "started") (.int 1) false
          (.get (.str "A") (fun seen => .done (.struct "Seen" [] [("old", seen)]))))
  | "G" => .get (.str "config") (fun v => .done v)
  | "a" => .get (.str "b") (fun v => .done v)
  | "b" => .get (.str "a") (fun v => .done v)
  | "forever" => .spin
  | _ => .done .nil

end Reentrant

/-- The container after `Singleton("config", 7)` on a fresh container. -/
def configShared : Container :=
  { New with bindings := mapSet New.bindings "config" ⟨.int 7, true⟩ }

/-- The container after `Bind("a", a)` and `Bind("b", b)` on a fresh container. -/
def pingPong : Container :=
  { New with bindings := mapSet (mapSet New.bindings "a" ⟨.func "a" [], false⟩) "b"
                           ⟨.func "b" [], false⟩ }

/-- The container `configShared` once 7 is cached under "config". -/
def configCached : Container :=
  { configShared with shared := mapSet configShared.shared "config" (.int 7) }

/-- The container after `Bind("s", forever)` on a fresh container. -/
def foreverBound : Container :=
  { New with bindings := mapSet New.bindings "s" ⟨.func "forever" [], false⟩ }

/-! ## Framing: what a resolution may change -/

/-- A relation between the state before and after, reflexive, transitive and kept by
each `Make` of the loop, is kept by the loop of `extractParameters`. -/
theorem loop_rel (make : MakeFn) (R : Container → Log → Container → Log → Prop)
    (hrefl : ∀ c log, R c log c log)
    (htrans : ∀ c log c1 log1 c2 log2, R c log c1 log1 → R c1 log1 c2 log2 → R c log c2 log2)
    (hmake : ∀ c log t c1 log1, (make c log t).final = some (c1, log1) → R c log c1 log1) :
    ∀ (ts : List Value) (c : Container) (log : Log) (args : List Value) (c1 : Container)
      (log1 : Log), (extractParameters.loop make ts c log args).final = some (c1, log1) →
      R c log c1 log1 := by
  intro ts
  induction ts with
  | nil =>
    intro c log args c1 log1 hfin
    simp only [extractParameters.loop, Outcome.final, Option.some.injEq, Prod.mk.injEq] at hfin
    obtain ⟨rfl, rfl⟩ := hfin
    exact hrefl _ _
  | cons t ts ih =>
    intro c log args c1 log1 hfin
    unfold extractParameters.loop at hfin
    have hm := hmake c log t
    cases hr : make c log t with
    | ret a c2 log2 =>
      rw [hr] at hfin hm
      obtain ⟨arg, err⟩ := a
      have h2 := hm c2 log2 rfl
      cases err with
      | none =>
        exact htrans _ _ _ _ _ _ h2 (ih c2 log2 _ c1 log1 hfin)
      | some e =>
        simp only [Outcome.final, Option.some.injEq, Prod.mk.injEq] at hfin
        obtain ⟨rfl, rfl⟩ := hfin
        exact h2
    | panic e c2 log2 =>
      rw [hr] at hfin hm
      simp only [Outcome.final, Option.some.injEq, Prod.mk.injEq] at hfin
      obtain ⟨rfl, rfl⟩ := hfin
      exact hm _ _ rfl
    | diverge =>
      rw [hr] at hfin
      simp [Outcome.final] at hfin

/-- Such a relation, kept also by a factory call, is kept by the body of `Invoke`. -/
theorem InvokeWith_rel (h : Host) (make : MakeFn)
    (R : Container → Log → Container → Log → Prop)
    (hrefl : ∀ c log, R c log c log)
    (htrans : ∀ c log c1 log1 c2 log2, R c log c1 log1 → R c1 log1 c2 log2 → R c log c2 log2)
    (hcall : ∀ c log name params args,
      R c log c (log ++ [(Value.func name params, args)]))
    (hmake : ∀ c log t c1 log1, (make c log t).final = some (c1, log1) → R c log c1 log1)
    (c : Container) (log : Log) (abstract : Value) (c1 : Container) (log1 : Log)
    (hfin : (InvokeWith h make c log abstract).final = some (c1, log1)) :
    R c log c1 log1 := by
  unfold InvokeWith at hfin
  cases abstract with
  | func name params =>
    simp only [binding.New, Binding.ConcreteIsFunc, utils.IsFunc, extractParameters] at hfin
    have hl := loop_rel make R hrefl htrans hmake (reflectIn (Value.func name params)) c log []
    cases hr : extractParameters.loop make (reflectIn (Value.func name params)) c log [] with
    | ret ps c2 log2 =>
      rw [hr] at hl
      simp [hr, Outcome.final, Binding.GetConcrete] at hfin
      obtain ⟨rfl, rfl⟩ := hfin
      exact htrans _ _ _ _ _ _ (hl _ _ rfl) (hcall _ _ _ _ _)
    | panic e c2 log2 =>
      rw [hr] at hl
      simp [hr, Outcome.final] at hfin
      obtain ⟨rfl, rfl⟩ := hfin
      exact hl _ _ rfl
    | diverge =>
      simp [hr, Outcome.final] at hfin
  | _ =>
    simp [binding.New, Binding.ConcreteIsFunc, utils.IsFunc, Outcome.final] at hfin
    obtain ⟨rfl, rfl⟩ := hfin
    exact hrefl _ _

/-- Such a relation, kept also by the cache write of a shared binding, is kept by
every `Make` that ends. -/
theorem Make_rel (h : Host) (R : Container → Log → Container → Log → Prop)
    (hrefl : ∀ c log, R c log c log)
    (htrans : ∀ c log c1 log1 c2 log2, R c log c1 log1 → R c1 log1 c2 log2 → R c log c2 log2)
    (hcall : ∀ c log name params args,
      R c log c (log ++ [(Value.func name params, args)]))
    (hstore : ∀ c log c1 log1 A b v, R c log c1 log1 → utils.IsFunc A = false →
      c.shared (utils.GetKey A) = none → getBinding c A = .ok b → b.Shared = true →
      R c log { c1 with shared := mapSet c1.shared (utils.GetKey A) v } log1) :
    ∀ (fuel : Nat) (c : Container) (log : Log) (A : Value) (ps : List Value)
      (c1 : Container) (log1 : Log),
      (Make h fuel c log A ps).final = some (c1, log1) → R c log c1 log1 := by
  intro fuel
  induction fuel with
  | zero =>
    intro c log A ps c1 log1 hfin
    simp [Make, Outcome.final] at hfin
  | succ fuel ih =>
    intro c log A ps c1 log1 hfin
    have hinv := InvokeWith_rel h (fun c1 log1 a => Make h fuel c1 log1 a []) R hrefl htrans
      hcall (fun c log t c1 log1 hf => ih c log t [] c1 log1 hf)
    unfold Make at hfin
    by_cases hA : utils.IsFunc A = true
    · simp only [hA, if_true] at hfin
      have hi := hinv c log A
      cases hr : InvokeWith h (fun c1 log1 a => Make h fuel c1 log1 a []) c log A with
      | ret v c2 log2 =>
        rw [hr] at hi hfin
        exact hi _ _ hfin
      | panic e c2 log2 =>
        rw [hr] at hi hfin
        exact hi _ _ hfin
      | diverge =>
        rw [hr] at hfin
        simp [Outcome.final] at hfin
    · simp only [hA] at hfin
      cases hs : c.shared (utils.GetKey A) with
      | some v =>
        simp [hs, Outcome.final] at hfin
        obtain ⟨rfl, rfl⟩ := hfin
        exact hrefl _ _
      | none =>
        cases hb : getBinding c A with
        | error err =>
          simp [hs, hb, Outcome.final] at hfin
          obtain ⟨rfl, rfl⟩ := hfin
          exact hrefl _ _
        | ok b =>
          simp only [hs, hb] at hfin
          have key : ∀ (r : Outcome Value),
              (∀ c2 log2, r.final = some (c2, log2) → R c log c2 log2) →
              (match r with
                | .ret concrete c1 log1 =>
                  if b.Shared = true then
                    (Outcome.ret (concrete, (none : Option Error))
                      { c1 with shared := mapSet c1.shared (utils.GetKey A) concrete } log1)
                  else .ret (concrete, none) c1 log1
                | .panic e c1 log1 => .panic e c1 log1
                | .diverge => .diverge).final = some (c1, log1) → R c log c1 log1 := by
            intro r hr hf
            cases r with
            | ret v c2 log2 =>
              by_cases hsh : b.Shared = true
              · simp [hsh, Outcome.final] at hf
                obtain ⟨rfl, rfl⟩ := hf
                exact hstore c log c2 log2 A b v (hr _ _ rfl) (by simpa using hA) hs hb hsh
              · simp [hsh, Outcome.final] at hf
                obtain ⟨rfl, rfl⟩ := hf
                exact hr _ _ rfl
            | panic e c2 log2 =>
              simp [Outcome.final] at hf
              obtain ⟨rfl, rfl⟩ := hf
              exact hr _ _ rfl
            | diverge => simp [Outcome.final] at hf
          apply key _ _ hfin
          intro c2 log2 hf2
          by_cases hc : (b.ConcreteIsFunc && ps.isEmpty) = true
          · rw [if_pos hc] at hf2
            exact hinv _ _ _ _ _ hf2
          · rw [if_neg hc] at hf2
            simp only [Outcome.final, Option.some.injEq, Prod.mk.injEq] at hf2
            obtain ⟨rfl, hl⟩ := hf2
            unfold Binding.GetConcrete at hl
            split at hl
            · subst hl
              exact hcall _ _ _ _ _
            · subst hl
              exact hrefl _ _


/-! ## Lookup and the first steps of `Make` -/

theorem getBinding_ok_iff (c : Container) (A : Value) (b : Binding) :
    getBinding c A = .ok b ↔
      c.bindings (match c.aliases (utils.GetKey A) with
        | some target => target
        | none => utils.GetKey A) = some b := by
  unfold getBinding
  simp only []
  cases hb : c.bindings (match c.aliases (utils.GetKey A) with
        | some target => target
        | none => utils.GetKey A) with
  | none => simp
  | some b' => simp

theorem getBinding_error_iff (c : Container) (A : Value) (e : Error) :
    getBinding c A = .error e ↔
      (c.bindings (match c.aliases (utils.GetKey A) with
        | some target => target
        | none => utils.GetKey A) = none ∧ e = .BindingMissingError A) := by
  unfold getBinding
  simp only []
  cases hb : c.bindings (match c.aliases (utils.GetKey A) with
        | some target => target
        | none => utils.GetKey A) with
  | none => simp [eq_comm]
  | some b' => simp

theorem getBinding_direct (c : Container) (A : Value) (b : Binding)
    (ha : c.aliases (utils.GetKey A) = none) (hb : c.bindings (utils.GetKey A) = some b) :
    getBinding c A = .ok b := by
  rw [getBinding_ok_iff, ha]
  exact hb

theorem getBinding_aliased (c : Container) (A : Value) (t : String) (b : Binding)
    (ha : c.aliases (utils.GetKey A) = some t) (hb : c.bindings t = some b) :
    getBinding c A = .ok b := by
  rw [getBinding_ok_iff, ha]
  exact hb

theorem Make_cached (h : Host) (fuel : Nat) (c : Container) (log : Log) (A : Value)
    (ps : List Value) (v : Value) (hA : utils.IsFunc A = false)
    (hs : c.shared (utils.GetKey A) = some v) :
    Make h (fuel + 1) c log A ps = .ret (v, none) c log := by
  simp [Make, hA, hs]

theorem Make_error (h : Host) (fuel : Nat) (c : Container) (log : Log) (A : Value)
    (ps : List Value) (e : Error) (hA : utils.IsFunc A = false)
    (hs : c.shared (utils.GetKey A) = none) (hb : getBinding c A = .error e) :
    Make h (fuel + 1) c log A ps = .ret (.nil, some e) c log := by
  simp [Make, hA, hs, hb]

/-- A binding whose concrete is not callable: `Make` returns the stored concrete,
whatever the parameters, and writes the cache only when the binding is shared. -/
theorem Make_constant (h : Host) (fuel : Nat) (c : Container) (log : Log) (A : Value)
    (ps : List Value) (b : Binding) (hA : utils.IsFunc A = false)
    (hs : c.shared (utils.GetKey A) = none) (hb : getBinding c A = .ok b)
    (hc : utils.IsFunc b.Concrete = false) :
    Make h (fuel + 1) c log A ps =
      .ret (b.Concrete, none)
        (if b.Shared then { c with shared := mapSet c.shared (utils.GetKey A) b.Concrete }
          else c) log := by
  have hg : b.GetConcrete h ps log = (b.Concrete, log) := by
    unfold Binding.GetConcrete
    split
    · rename_i heq
      rw [heq] at hc
      simp [utils.IsFunc] at hc
    · rfl
  cases hsh : b.Shared <;>
    simp [Make, hA, hs, hb, Binding.ConcreteIsFunc, hc, hg, hsh]

/-- A factory binding called without parameters goes through `Invoke`. -/
theorem Make_factory_auto (h : Host) (fuel : Nat) (c : Container) (log : Log)
    (A : Value) (name : String) (params : List String) (sh : Bool)
    (hA : utils.IsFunc A = false) (hs : c.shared (utils.GetKey A) = none)
    (hb : getBinding c A = .ok ⟨.func name params, sh⟩) :
    Make h (fuel + 1) c log A [] =
      match Invoke h fuel c log (.func name params) with
      | .ret v c1 log1 =>
        .ret (v, none)
          (if sh then { c1 with shared := mapSet c1.shared (utils.GetKey A) v } else c1) log1
      | .panic e c1 log1 => .panic e c1 log1
      | .diverge => .diverge := by
  have hf : utils.IsFunc (Value.func name params) = true := rfl
  unfold Invoke
  cases hi : InvokeWith h (fun c1 log1 a => Make h fuel c1 log1 a []) c log
      (.func name params) <;>
  cases sh <;>
    simp [Make, hA, hs, hb, Binding.ConcreteIsFunc, hf, hi]

/-- `Make` of a callable abstract is `Invoke`. -/
theorem Make_callable (h : Host) (fuel : Nat) (c : Container) (log : Log)
    (A : Value) (ps : List Value) (hA : utils.IsFunc A = true) :
    Make h (fuel + 1) c log A ps =
      match Invoke h fuel c log A with
      | .ret v c1 log1 => .ret (v, none) c1 log1
      | .panic e c1 log1 => .panic e c1 log1
      | .diverge => .diverge := by
  unfold Invoke
  simp [Make, hA]

/-- `Invoke` of a function value: resolve the declared parameters, then call it. -/
theorem Invoke_func (h : Host) (fuel : Nat) (c : Container) (log : Log)
    (name : String) (params : List String) :
    Invoke h fuel c log (.func name params) =
      match extractParameters.loop (fun c1 log1 a => Make h fuel c1 log1 a [])
          (params.map Value.typ) c log [] with
      | .ret args c1 log1 => .ret (h name args) c1 (log1 ++ [(.func name params, args)])
      | .panic e c1 log1 => .panic e c1 log1
      | .diverge => .diverge := by
  simp [Invoke, InvokeWith, binding.New, Binding.ConcreteIsFunc, utils.IsFunc,
    extractParameters, reflectIn, Binding.GetConcrete]

theorem provide_ret_inv (c c1 : Container) (log log1 : Log) (A v : Value) (sh : Bool)
    (hp : provide c log A v sh = .ret () c1 log1) :
    log1 = log ∧
    c1 = { c with bindings := mapSet c.bindings (utils.GetKey A)
                                (binding.New (if utils.IsStruct A then A else v) sh) } := by
  unfold provide at hp
  split at hp
  · simp at hp
  · split at hp
    · rename_i hst
      split at hp
      · simp at hp
      · simp only [Outcome.ret.injEq, true_and] at hp
        simp [hst, hp.1, hp.2]
    · rename_i hst
      simp only [Outcome.ret.injEq, true_and] at hp
      simp [hst, hp.1, hp.2]

theorem getBinding_after_provide (c c1 : Container) (log log1 : Log) (A v : Value) (sh : Bool)
    (hal : c.aliases (utils.GetKey A) = none)
    (hp : provide c log A v sh = .ret () c1 log1) :
    getBinding c1 A = .ok (binding.New (if utils.IsStruct A then A else v) sh) := by
  obtain ⟨_, rfl⟩ := provide_ret_inv c c1 log log1 A v sh hp
  apply getBinding_direct
  · exact hal
  · simp [mapSet]

theorem getBinding_congr (c c1 : Container) (A : Value) (hb : c1.bindings = c.bindings)
    (ha : c1.aliases = c.aliases) : getBinding c1 A = getBinding c A := by
  unfold getBinding
  rw [hb, ha]

theorem Frame_refl (c : Container) (log : Log) : Frame c log c log :=
  ⟨rfl, rfl, fun _ hk => absurd rfl hk, [], by simp⟩

theorem Frame_trans (c : Container) (log : Log) (c1 : Container) (log1 : Log)
    (c2 : Container) (log2 : Log) (h1 : Frame c log c1 log1) (h2 : Frame c1 log1 c2 log2) :
    Frame c log c2 log2 := by
  obtain ⟨hb1, ha1, hs1, l1, hl1⟩ := h1
  obtain ⟨hb2, ha2, hs2, l2, hl2⟩ := h2
  refine ⟨hb2.trans hb1, ha2.trans ha1, ?_, l1 ++ l2, by rw [hl2, hl1, List.append_assoc]⟩
  intro k hk
  by_cases h1k : c1.shared k = c.shared k
  · have h2k : c2.shared k ≠ c1.shared k := by rw [h1k]; exact hk
    obtain ⟨A, b, hkey, hf, hg, hsh⟩ := hs2 k h2k
    exact ⟨A, b, hkey, hf, by rw [← getBinding_congr c c1 A hb1 ha1]; exact hg, hsh⟩
  · exact hs1 k h1k

/-- Every `Make` that ends stays within the frame. -/
theorem Make_frame (h : Host) (fuel : Nat) (c : Container) (log : Log) (A : Value)
    (ps : List Value) (c1 : Container) (log1 : Log)
    (hfin : (Make h fuel c log A ps).final = some (c1, log1)) : Frame c log c1 log1 := by
  refine Make_rel h Frame Frame_refl Frame_trans ?_ ?_ fuel c log A ps c1 log1 hfin
  · intro c log name params args
    exact ⟨rfl, rfl, fun _ hk => absurd rfl hk, _, rfl⟩
  · intro c log c1 log1 A b v hR hA hs hg hsh
    obtain ⟨hb1, ha1, hs1, l1, hl1⟩ := hR
    refine ⟨hb1, ha1, ?_, l1, hl1⟩
    intro k hk
    by_cases hkA : k = utils.GetKey A
    · exact ⟨A, b, hkA.symm, hA, hg, hsh⟩
    · apply hs1 k
      simpa [mapSet, hkA] using hk

/-- Every `Invoke` that ends stays within the frame. -/
theorem Invoke_frame (h : Host) (fuel : Nat) (c : Container) (log : Log) (A : Value)
    (c1 : Container) (log1 : Log)
    (hfin : (Invoke h fuel c log A).final = some (c1, log1)) : Frame c log c1 log1 := by
  refine InvokeWith_rel h _ Frame Frame_refl Frame_trans ?_ ?_ c log A c1 log1 hfin
  · intro c log name params args
    exact ⟨rfl, rfl, fun _ hk => absurd rfl hk, _, rfl⟩
  · intro c log t c1 log1 hf
    exact Make_frame h fuel c log t [] c1 log1 hf

/-! ## More fuel does not change a call that ends -/

theorem loop_mono (mk mk1 : MakeFn)
    (hmk : ∀ c log t, mk c log t ≠ .diverge → mk1 c log t = mk c log t) :
    ∀ (ts : List Value) (c : Container) (log : Log) (args : List Value),
      extractParameters.loop mk ts c log args ≠ .diverge →
      extractParameters.loop mk1 ts c log args = extractParameters.loop mk ts c log args := by
  intro ts
  induction ts with
  | nil => intro c log args _; rfl
  | cons t ts ih =>
    intro c log args hnd
    simp only [extractParameters.loop] at hnd ⊢
    cases hm : mk c log t with
    | ret a c2 log2 =>
      rw [hmk c log t (by rw [hm]; simp), hm]
      rw [hm] at hnd
      obtain ⟨arg, err⟩ := a
      cases err with
      | none => exact ih c2 log2 _ hnd
      | some e => rfl
    | panic e c2 log2 => rw [hmk c log t (by rw [hm]; simp), hm]
    | diverge => rw [hm] at hnd; exact absurd rfl hnd

theorem InvokeWith_mono (h : Host) (mk mk1 : MakeFn)
    (hmk : ∀ c log t, mk c log t ≠ .diverge → mk1 c log t = mk c log t)
    (c : Container) (log : Log) (A : Value)
    (hnd : InvokeWith h mk c log A ≠ .diverge) :
    InvokeWith h mk1 c log A = InvokeWith h mk c log A := by
  unfold InvokeWith at hnd ⊢
  simp only [] at hnd ⊢
  split
  · rfl
  · rename_i hf
    simp only [hf, if_false] at hnd
    unfold extractParameters at hnd ⊢
    have hl := loop_mono mk mk1 hmk (reflectIn (binding.New A false).Concrete) c log []
    cases hloop : extractParameters.loop mk (reflectIn (binding.New A false).Concrete) c log []
      with
    | ret ps c2 log2 => rw [hl (by rw [hloop]; simp), hloop]
    | panic e c2 log2 => rw [hl (by rw [hloop]; simp), hloop]
    | diverge => rw [hloop] at hnd; exact absurd rfl hnd

/-- A `Make` that ends within some fuel ends the same way with one more unit. -/
theorem Make_succ_fuel (h : Host) :
    ∀ (fuel : Nat) (c : Container) (log : Log) (A : Value) (ps : List Value),
      Make h fuel c log A ps ≠ .diverge →
      Make h (fuel + 1) c log A ps = Make h fuel c log A ps := by
  intro fuel
  induction fuel with
  | zero => intro c log A ps hnd; exact absurd rfl hnd
  | succ n ih =>
    intro c log A ps hnd
    have hinv : ∀ c log F,
        InvokeWith h (fun c1 log1 a => Make h n c1 log1 a []) c log F ≠ .diverge →
        InvokeWith h (fun c1 log1 a => Make h (n + 1) c1 log1 a []) c log F =
          InvokeWith h (fun c1 log1 a => Make h n c1 log1 a []) c log F :=
      fun c log F => InvokeWith_mono h _ _ (fun c log t hd => ih c log t [] hd) c log F
    rw [Make] at hnd
    rw [Make.eq_def h (n + 1 + 1)]
    simp only []
    rw [Make.eq_def h (n + 1)]
    simp only []
    by_cases hA : utils.IsFunc A = true
    · simp only [hA, if_true] at hnd ⊢
      rw [hinv c log A (by intro hd; rw [hd] at hnd; exact hnd rfl)]
    · have hA' : utils.IsFunc A = false := by simpa using hA
      simp only [hA', Bool.false_eq_true, if_false] at hnd ⊢
      cases hs : c.shared (utils.GetKey A) with
      | some v => rfl
      | none =>
        cases hg : getBinding c A with
        | error e => rfl
        | ok b =>
          simp only [hs, hg] at hnd ⊢
          by_cases hc : (b.ConcreteIsFunc && ps.isEmpty) = true
          · simp only [hc, if_true] at hnd ⊢
            rw [hinv c log b.Concrete (by intro hd; rw [hd] at hnd; exact hnd rfl)]
          · simp only [hc, Bool.false_eq_true, if_false]

/-- A `Make` that ends within some fuel ends the same way with any larger fuel. -/
theorem Make_more_fuel (h : Host) (fuel extra : Nat) (c : Container) (log : Log) (A : Value)
    (ps : List Value) (hnd : Make h fuel c log A ps ≠ .diverge) :
    Make h (fuel + extra) c log A ps = Make h fuel c log A ps := by
  induction extra with
  | zero => rfl
  | succ k ih =>
    rw [← Nat.add_assoc, Make_succ_fuel h (fuel + k) c log A ps (by rw [ih]; exact hnd), ih]

/-! ## Dependency cycles never return -/

theorem getBinding_key_congr (c : Container) (A B : Value) (b : Binding)
    (hk : utils.GetKey A = utils.GetKey B) :
    getBinding c A = .ok b ↔ getBinding c B = .ok b := by
  rw [getBinding_ok_iff, getBinding_ok_iff, hk]

theorem CycleSet_frame (c c1 : Container) (D : String → Prop)
    (hb : c1.bindings = c.bindings) (ha : c1.aliases = c.aliases) (hD : CycleSet c D) :
    CycleSet c1 D := by
  intro k hk
  obtain ⟨name, params, sh, hg, hp⟩ := hD k hk
  exact ⟨name, params, sh, by rw [getBinding_congr c c1 _ hb ha]; exact hg, hp⟩

/-- The loop stops without returning as soon as one of the types to resolve cannot be
made. -/
theorem loop_never_returns (make : MakeFn) (I : Container → Prop) (D : String → Prop)
    (hkeep : ∀ c log t c1 log1, I c → (make c log t).final = some (c1, log1) → I c1)
    (hstuck : ∀ c log p r c1 log1, I c → D p → make c log (.typ p) ≠ .ret r c1 log1) :
    ∀ (ts : List String) (c : Container) (log : Log) (args : List Value),
      I c → (∃ p, p ∈ ts ∧ D p) →
      ∀ r c1 log1, extractParameters.loop make (ts.map Value.typ) c log args ≠
        .ret r c1 log1 := by
  intro ts
  induction ts with
  | nil =>
    intro c log args _ hp
    obtain ⟨p, hp, _⟩ := hp
    simp at hp
  | cons t ts ih =>
    intro c log args hI hp r c1 log1 hret
    simp only [List.map_cons, extractParameters.loop] at hret
    cases hm : make c log (.typ t) with
    | ret a c2 log2 =>
      obtain ⟨arg, err⟩ := a
      rw [hm] at hret
      cases err with
      | some e => simp at hret
      | none =>
        simp only [] at hret
        obtain ⟨p, hp, hDp⟩ := hp
        rcases List.mem_cons.mp hp with rfl | hp
        · exact hstuck c log p _ _ _ hI hDp hm
        · exact ih c2 log2 _ (hkeep c log _ c2 log2 hI (by rw [hm]; rfl)) ⟨p, hp, hDp⟩
            r c1 log1 hret
    | panic e c2 log2 =>
      rw [hm] at hret
      simp at hret
    | diverge =>
      rw [hm] at hret
      simp at hret

theorem Uncached_store (c : Container) (D : String → Prop) (k : String) (v : Value)
    (hU : Uncached c D) (hk : ¬ D k) :
    Uncached { c with shared := mapSet c.shared k v } D := by
  intro k' hk'
  have hne : k' ≠ k := fun heq => hk (heq ▸ hk')
  simpa [mapSet, hne] using hU k' hk'

theorem Invoke_ne_ret_of_loop (h : Host) (fuel : Nat) (c : Container) (log : Log)
    (name : String) (params : List String)
    (hl : ∀ r c1 log1, extractParameters.loop (fun c1 log1 a => Make h fuel c1 log1 a [])
      (params.map Value.typ) c log [] ≠ .ret r c1 log1) :
    ∀ v c1 log1, Invoke h fuel c log (.func name params) ≠ .ret v c1 log1 := by
  intro v c1 log1 hret
  rw [Invoke_func] at hret
  cases hloop : extractParameters.loop (fun c1 log1 a => Make h fuel c1 log1 a [])
      (params.map Value.typ) c log [] with
  | ret r c2 log2 => exact hl r c2 log2 hloop
  | panic e c2 log2 => rw [hloop] at hret; simp at hret
  | diverge => rw [hloop] at hret; simp at hret

/-- In a state where a set of keys closed under one dependency step has no cache
entry, a `Make` without parameters leaves those keys without cache entry, and a `Make`
asked for one of those keys never returns. -/
theorem cycle_trap (h : Host) (D : String → Prop) :
    ∀ (fuel : Nat) (c : Container) (log : Log) (A : Value),
      CycleSet c D → Uncached c D →
      (∀ c1 log1, (Make h fuel c log A []).final = some (c1, log1) → Uncached c1 D) ∧
      (utils.IsFunc A = false → D (utils.GetKey A) →
        ∀ r c1 log1, Make h fuel c log A [] ≠ .ret r c1 log1) := by
  intro fuel
  induction fuel with
  | zero =>
    intro c log A _ _
    exact ⟨fun c1 log1 hf => by simp [Make, Outcome.final] at hf,
      fun _ _ r c1 log1 hr => by simp [Make] at hr⟩
  | succ n ih =>
    intro c log A hC hU
    have hkeep : ∀ c log t c1 log1, (CycleSet c D ∧ Uncached c D) →
        (Make h n c log t []).final = some (c1, log1) → (CycleSet c1 D ∧ Uncached c1 D) := by
      intro c log t c1 log1 hI hf
      obtain ⟨hb, ha, _, _⟩ := Make_frame h n c log t [] c1 log1 hf
      exact ⟨CycleSet_frame c c1 D hb ha hI.1, (ih c log t hI.1 hI.2).1 c1 log1 hf⟩
    have hstuck : ∀ c log p r c1 log1, (CycleSet c D ∧ Uncached c D) → D p →
        Make h n c log (.typ p) [] ≠ .ret r c1 log1 := by
      intro c log p r c1 log1 hI hp
      exact (ih c log (.typ p) hI.1 hI.2).2 rfl hp r c1 log1
    have hinv : ∀ F c1 log1, (Invoke h n c log F).final = some (c1, log1) →
        (CycleSet c1 D ∧ Uncached c1 D) := by
      intro F c1 log1 hf
      exact InvokeWith_rel h (fun c1 log1 a => Make h n c1 log1 a [])
        (fun c _ c1 _ => (CycleSet c D ∧ Uncached c D) → (CycleSet c1 D ∧ Uncached c1 D))
        (fun _ _ hI => hI) (fun _ _ _ _ _ _ h1 h2 hI => h2 (h1 hI))
        (fun _ _ _ _ _ hI => hI)
        (fun c log t c1 log1 hf hI => hkeep c log t c1 log1 hI hf) c log F c1 log1 hf ⟨hC, hU⟩
    by_cases hA : utils.IsFunc A = true
    · refine ⟨?_, fun hA' => by rw [hA] at hA'; exact absurd hA' (by simp)⟩
      intro c1 log1 hf
      rw [Make_callable h n c log A [] hA] at hf
      cases hi : Invoke h n c log A with
      | ret v c2 log2 =>
        rw [hi] at hf
        exact (hinv A c1 log1 (by rw [hi]; exact hf)).2
      | panic e c2 log2 =>
        rw [hi] at hf
        exact (hinv A c1 log1 (by rw [hi]; exact hf)).2
      | diverge =>
        rw [hi] at hf
        simp [Outcome.final] at hf
    · have hA' : utils.IsFunc A = false := by simpa using hA
      cases hs : c.shared (utils.GetKey A) with
      | some v =>
        rw [Make_cached h n c log A [] v hA' hs]
        refine ⟨?_, ?_⟩
        · intro c1 log1 hf
          simp only [Outcome.final, Option.some.injEq, Prod.mk.injEq] at hf
          rw [← hf.1]
          exact hU
        · intro _ hD
          rw [hU _ hD] at hs
          exact absurd hs (by simp)
      | none =>
        cases hg : getBinding c A with
        | error e =>
          rw [Make_error h n c log A [] e hA' hs hg]
          refine ⟨?_, ?_⟩
          · intro c1 log1 hf
            simp only [Outcome.final, Option.some.injEq, Prod.mk.injEq] at hf
            rw [← hf.1]
            exact hU
          · intro _ hD
            obtain ⟨name, params, sh, hgt, _⟩ := hC _ hD
            rw [(getBinding_key_congr c (.typ (utils.GetKey A)) A _ rfl).mp hgt] at hg
            exact absurd hg (by simp)
        | ok b =>
          obtain ⟨conc, sh⟩ := b
          cases hconc : utils.IsFunc conc with
          | false =>
            have hnotD : ¬ D (utils.GetKey A) := by
              intro hD
              obtain ⟨name, params, sh', hgt, _⟩ := hC _ hD
              rw [(getBinding_key_congr c (.typ (utils.GetKey A)) A _ rfl).mp hgt] at hg
              simp only [Except.ok.injEq, Binding.mk.injEq] at hg
              rw [← hg.1] at hconc
              simp [utils.IsFunc] at hconc
            rw [Make_constant h n c log A [] ⟨conc, sh⟩ hA' hs hg hconc]
            refine ⟨?_, fun _ hD => absurd hD hnotD⟩
            intro c1 log1 hf
            simp only [Outcome.final, Option.some.injEq, Prod.mk.injEq] at hf
            rw [← hf.1]
            cases sh with
            | false => exact hU
            | true => exact Uncached_store c D _ _ hU hnotD
          | true =>
            cases conc with
            | func name params =>
              rw [Make_factory_auto h n c log A name params sh hA' hs hg]
              have hpart2 : D (utils.GetKey A) →
                  ∀ v c1 log1, Invoke h n c log (.func name params) ≠ .ret v c1 log1 := by
                intro hD
                obtain ⟨name', params', sh', hgt, hp⟩ := hC _ hD
                rw [(getBinding_key_congr c (.typ (utils.GetKey A)) A _ rfl).mp hgt] at hg
                simp only [Except.ok.injEq, Binding.mk.injEq, Value.func.injEq] at hg
                obtain ⟨⟨_, rfl⟩, _⟩ := hg
                apply Invoke_ne_ret_of_loop
                exact loop_never_returns _ (fun c => CycleSet c D ∧ Uncached c D) D
                  (fun c log t c1 log1 hI hf => hkeep c log t c1 log1 hI hf)
                  (fun c log p r c1 log1 hI hp => hstuck c log p r c1 log1 hI hp)
                  params' c log [] ⟨hC, hU⟩ hp
              refine ⟨?_, ?_⟩
              · intro c1 log1 hf
                cases hi : Invoke h n c log (.func name params) with
                | ret v c2 log2 =>
                  have hnotD : ¬ D (utils.GetKey A) := fun hD => hpart2 hD v c2 log2 hi
                  rw [hi] at hf
                  simp only [Outcome.final, Option.some.injEq, Prod.mk.injEq] at hf
                  rw [← hf.1]
                  have hU2 := (hinv _ c2 log2 (by rw [hi]; rfl)).2
                  cases sh with
                  | false => exact hU2
                  | true => exact Uncached_store c2 D _ _ hU2 hnotD
                | panic e c2 log2 =>
                  rw [hi] at hf
                  exact (hinv _ c1 log1 (by rw [hi]; exact hf)).2
                | diverge =>
                  rw [hi] at hf
                  simp [Outcome.final] at hf
              · intro _ hD r c1 log1 hret
                cases hi : Invoke h n c log (.func name params) with
                | ret v c2 log2 => exact hpart2 hD v c2 log2 hi
                | panic e c2 log2 => rw [hi] at hret; simp at hret
                | diverge => rw [hi] at hret; simp at hret
            | _ => simp [utils.IsFunc] at hconc

/-! ## A factory is not called while its own parameters are resolved -/

theorem callsOf_append_one (f g : Value) (args : List Value) (log : Log) :
    callsOf f (log ++ [(g, args)]) = callsOf f log + (if f.sameFunc g then 1 else 0) := by
  unfold callsOf
  rw [List.filter_append, List.length_append]
  by_cases hfg : f.sameFunc g = true
  · simp [List.filter, hfg]
  · simp [List.filter, hfg]

theorem sameFunc_func (name nm : String) (params ps : List String) :
    (Value.func name params).sameFunc (.func nm ps) = true ↔ (name = nm ∧ params = ps) := by
  simp [Value.sameFunc]

/-- A loop that returns has made each declared type in turn, each call returning. -/
theorem loop_ret_rel (make : MakeFn) (R : Container → Log → Container → Log → Prop)
    (hrefl : ∀ c log, R c log c log)
    (htrans : ∀ c log c1 log1 c2 log2, R c log c1 log1 → R c1 log1 c2 log2 → R c log c2 log2) :
    ∀ (ts : List String),
      (∀ p, p ∈ ts → ∀ c log r c1 log1, make c log (.typ p) = .ret r c1 log1 →
        R c log c1 log1) →
      ∀ (c : Container) (log : Log) (args : List Value) (r : List Value) (c1 : Container)
        (log1 : Log),
        extractParameters.loop make (ts.map Value.typ) c log args = .ret r c1 log1 →
        R c log c1 log1 := by
  intro ts
  induction ts with
  | nil =>
    intro _ c log args r c1 log1 hret
    simp only [List.map_nil, extractParameters.loop, Outcome.ret.injEq] at hret
    obtain ⟨_, rfl, rfl⟩ := hret
    exact hrefl _ _
  | cons t ts ih =>
    intro hmake c log args r c1 log1 hret
    simp only [List.map_cons, extractParameters.loop] at hret
    cases hm : make c log (.typ t) with
    | ret a c2 log2 =>
      obtain ⟨arg, err⟩ := a
      rw [hm] at hret
      cases err with
      | some e => simp at hret
      | none =>
        simp only [] at hret
        exact htrans _ _ _ _ _ _ (hmake t (List.mem_cons_self _ _) c log _ c2 log2 hm)
          (ih (fun p hp => hmake p (List.mem_cons_of_mem _ hp)) c2 log2 _ r c1 log1 hret)
    | panic e c2 log2 =>
      rw [hm] at hret
      simp at hret
    | diverge =>
      rw [hm] at hret
      simp at hret

theorem Pending_frame (c c1 : Container) (Q : String → Prop) (cur : String)
    (hb : c1.bindings = c.bindings) (ha : c1.aliases = c.aliases) (hP : Pending c Q cur) :
    Pending c1 Q cur := by
  intro k hk
  obtain ⟨name, params, sh, hg, hp⟩ := hP k hk
  exact ⟨name, params, sh, by rw [getBinding_congr c c1 _ hb ha]; exact hg, hp⟩

/-- While the declared parameters of the function value `f` are being resolved, a
`Make` that returns has not called `f`, and has left the pending keys without cache
entry. -/
theorem no_nested_call (h : Host) (name : String) (params : List String) :
    ∀ (fuel : Nat) (Q : String → Prop) (c : Container) (log : Log) (A : Value),
      utils.IsFunc A = false → Uncached c Q → Pending c Q (utils.GetKey A) →
      (∃ p, p ∈ params ∧ (Q p ∨ p = utils.GetKey A)) →
      ∀ r c1 log1, Make h fuel c log A [] = .ret r c1 log1 →
        callsOf (.func name params) log1 = callsOf (.func name params) log ∧
          Uncached c1 Q := by
  intro fuel
  induction fuel with
  | zero =>
    intro Q c log A _ _ _ _ r c1 log1 hret
    simp [Make] at hret
  | succ n ih =>
    intro Q c log A hA hU hP hF r c1 log1 hret
    cases hs : c.shared (utils.GetKey A) with
    | some v =>
      rw [Make_cached h n c log A [] v hA hs] at hret
      simp only [Outcome.ret.injEq] at hret
      obtain ⟨_, rfl, rfl⟩ := hret
      exact ⟨rfl, hU⟩
    | none =>
      cases hg : getBinding c A with
      | error e =>
        rw [Make_error h n c log A [] e hA hs hg] at hret
        simp only [Outcome.ret.injEq] at hret
        obtain ⟨_, rfl, rfl⟩ := hret
        exact ⟨rfl, hU⟩
      | ok b =>
        obtain ⟨conc, sh⟩ := b
        cases hconc : utils.IsFunc conc with
        | false =>
          have hnotQ : ¬ Q (utils.GetKey A) := by
            intro hQ
            obtain ⟨nm, ps, sh', hgt, _⟩ := hP _ hQ
            rw [(getBinding_key_congr c (.typ (utils.GetKey A)) A _ rfl).mp hgt] at hg
            simp only [Except.ok.injEq, Binding.mk.injEq] at hg
            rw [← hg.1] at hconc
            simp [utils.IsFunc] at hconc
          rw [Make_constant h n c log A [] ⟨conc, sh⟩ hA hs hg hconc] at hret
          simp only [Outcome.ret.injEq] at hret
          obtain ⟨_, rfl, rfl⟩ := hret
          refine ⟨rfl, ?_⟩
          cases sh with
          | false => exact hU
          | true => exact Uncached_store c Q _ _ hU hnotQ
        | true =>
          cases conc with
          | func nm ps =>
            -- the keys of `Q` together with the key of `A`
            have hgt : getBinding c (.typ (utils.GetKey A)) = .ok ⟨.func nm ps, sh⟩ :=
              (getBinding_key_congr c (.typ (utils.GetKey A)) A _ rfl).mpr hg
            have hnotQ : ¬ Q (utils.GetKey A) := by
              intro hQ
              have hC : CycleSet c Q := by
                intro k hk
                obtain ⟨nm', ps', sh', hgk, p, hp, hQp⟩ := hP k hk
                refine ⟨nm', ps', sh', hgk, p, hp, ?_⟩
                rcases hQp with hQp | rfl
                · exact hQp
                · exact hQ
              exact (cycle_trap h Q (n + 1) c log A hC hU).2 hA hQ r c1 log1 hret
            have hnotF : ¬ (name = nm ∧ params = ps) := by
              rintro ⟨rfl, rfl⟩
              have hC : CycleSet c (fun k => Q k ∨ k = utils.GetKey A) := by
                intro k hk
                rcases hk with hk | rfl
                · obtain ⟨nm', ps', sh', hgk, p, hp, hQp⟩ := hP k hk
                  exact ⟨nm', ps', sh', hgk, p, hp, hQp⟩
                · obtain ⟨p, hp, hQp⟩ := hF
                  exact ⟨name, params, sh, hgt, p, hp, hQp⟩
              have hU' : Uncached c (fun k => Q k ∨ k = utils.GetKey A) := by
                intro k hk
                rcases hk with hk | rfl
                · exact hU k hk
                · exact hs
              exact (cycle_trap h _ (n + 1) c log A hC hU').2 hA (Or.inr rfl) r c1 log1 hret
            rw [Make_factory_auto h n c log A nm ps sh hA hs hg, Invoke_func] at hret
            cases hl : extractParameters.loop (fun c1 log1 a => Make h n c1 log1 a [])
                (ps.map Value.typ) c log [] with
            | ret args c2 log2 =>
              rw [hl] at hret
              simp only [Outcome.ret.injEq] at hret
              obtain ⟨_, hc1, hlog1⟩ := hret
              have hloop := loop_ret_rel (fun c1 log1 a => Make h n c1 log1 a [])
                (fun c0 l0 c1 l1 =>
                  (Uncached c0 (fun k => Q k ∨ k = utils.GetKey A) ∧
                    c0.bindings = c.bindings ∧ c0.aliases = c.aliases) →
                  (Uncached c1 (fun k => Q k ∨ k = utils.GetKey A) ∧
                    c1.bindings = c.bindings ∧ c1.aliases = c.aliases) ∧
                  callsOf (.func name params) l1 = callsOf (.func name params) l0)
                (fun _ _ hI => ⟨hI, rfl⟩)
                (fun _ _ _ _ _ _ h1 h2 hI =>
                  ⟨(h2 (h1 hI).1).1, ((h2 (h1 hI).1).2).trans (h1 hI).2⟩)
                ps (by
                  intro p hp c0 l0 r0 c3 l3 hm0 hI
                  have hm : Make h n c0 l0 (.typ p) [] = .ret r0 c3 l3 := hm0
                  obtain ⟨hU0, hb0, ha0⟩ := hI
                  have hP0 : Pending c0 (fun k => Q k ∨ k = utils.GetKey A)
                      (utils.GetKey (.typ p)) := by
                    apply Pending_frame c c0 _ _ hb0 ha0
                    intro k hk
                    rcases hk with hk | rfl
                    · obtain ⟨nm', ps', sh', hgk, q, hq, hQq⟩ := hP k hk
                      exact ⟨nm', ps', sh', hgk, q, hq, Or.inl hQq⟩
                    · exact ⟨nm, ps, sh, hgt, p, hp, Or.inr rfl⟩
                  have hF0 : ∃ q, q ∈ params ∧
                      ((Q q ∨ q = utils.GetKey A) ∨ q = utils.GetKey (.typ p)) := by
                    obtain ⟨q, hq, hQq⟩ := hF
                    exact ⟨q, hq, Or.inl hQq⟩
                  obtain ⟨hcalls, hU3⟩ := ih _ c0 l0 (.typ p) rfl hU0 hP0 hF0 r0 c3 l3 hm
                  obtain ⟨hb3, ha3, _, _⟩ := Make_frame h n c0 l0 (.typ p) [] c3 l3
                    (by rw [hm]; rfl)
                  exact ⟨⟨hU3, hb3.trans hb0, ha3.trans ha0⟩, hcalls⟩)
                c log [] args c2 log2 hl
              have hU0 : Uncached c (fun k => Q k ∨ k = utils.GetKey A) := by
                intro k hk
                rcases hk with hk | rfl
                · exact hU k hk
                · exact hs
              obtain ⟨⟨hU2, _, _⟩, hcalls⟩ := hloop ⟨hU0, rfl, rfl⟩
              have hUQ : Uncached c2 Q := fun k hk => hU2 k (Or.inl hk)
              refine ⟨?_, ?_⟩
              · rw [← hlog1, callsOf_append_one, hcalls]
                have : (Value.func name params).sameFunc (.func nm ps) = false := by
                  cases hsf : (Value.func name params).sameFunc (.func nm ps)
                  · rfl
                  · exact absurd ((sameFunc_func _ _ _ _).mp hsf) hnotF
                simp [this]
              · rw [← hc1]
                cases sh with
                | false => exact hUQ
                | true => exact Uncached_store c2 Q _ _ hUQ hnotQ
            | panic e c2 log2 =>
              rw [hl] at hret
              simp at hret
            | diverge =>
              rw [hl] at hret
              simp at hret
          | _ => simp [utils.IsFunc] at hconc

/-- Resolving the declared parameters of the function value `f` does not call `f`,
leaves the pending keys without cache entry and stays within the frame. -/
theorem loop_params_no_call (h : Host) (fuel : Nat) (name : String) (params : List String)
    (Q : String → Prop) (c : Container) (log : Log) (args : List Value) (c1 : Container)
    (log1 : Log) (hU : Uncached c Q) (hP : ∀ p, p ∈ params → Pending c Q p)
    (hl : extractParameters.loop (fun c1 log1 a => Make h fuel c1 log1 a [])
      (params.map Value.typ) c log [] = .ret args c1 log1) :
    callsOf (.func name params) log1 = callsOf (.func name params) log ∧
      Uncached c1 Q ∧ Frame c log c1 log1 := by
  have hframe : Frame c log c1 log1 :=
    loop_rel (fun c1 log1 a => Make h fuel c1 log1 a []) Frame Frame_refl Frame_trans
      (fun c log t c1 log1 hf => Make_frame h fuel c log t [] c1 log1 hf)
      (params.map Value.typ) c log [] c1 log1 (by rw [hl]; rfl)
  have hloop := loop_ret_rel (fun c1 log1 a => Make h fuel c1 log1 a [])
    (fun c0 l0 c1 l1 =>
      (Uncached c0 Q ∧ c0.bindings = c.bindings ∧ c0.aliases = c.aliases) →
      (Uncached c1 Q ∧ c1.bindings = c.bindings ∧ c1.aliases = c.aliases) ∧
      callsOf (.func name params) l1 = callsOf (.func name params) l0)
    (fun _ _ hI => ⟨hI, rfl⟩)
    (fun _ _ _ _ _ _ h1 h2 hI => ⟨(h2 (h1 hI).1).1, ((h2 (h1 hI).1).2).trans (h1 hI).2⟩)
    params (by
      intro p hp c0 l0 r0 c3 l3 hm0 hI
      have hm : Make h fuel c0 l0 (.typ p) [] = .ret r0 c3 l3 := hm0
      obtain ⟨hU0, hb0, ha0⟩ := hI
      have hP0 : Pending c0 Q (utils.GetKey (.typ p)) :=
        Pending_frame c c0 _ _ hb0 ha0 (hP p hp)
      obtain ⟨hcalls, hU3⟩ := no_nested_call h name params fuel Q c0 l0 (.typ p) rfl hU0 hP0
        ⟨p, hp, Or.inr rfl⟩ r0 c3 l3 hm
      obtain ⟨hb3, ha3, _, _⟩ := Make_frame h fuel c0 l0 (.typ p) [] c3 l3 (by rw [hm]; rfl)
      exact ⟨⟨hU3, hb3.trans hb0, ha3.trans ha0⟩, hcalls⟩)
    c log [] args c1 log1 hl
  obtain ⟨⟨hU1, _, _⟩, hcalls⟩ := hloop ⟨hU, rfl, rfl⟩
  exact ⟨hcalls, hU1, hframe⟩

/-! ## The cache only grows -/

/-- Every `Make` that ends keeps each shared-cache entry it found. -/
theorem Make_cache_mono (h : Host) (fuel : Nat) (c : Container) (log : Log) (A : Value)
    (ps : List Value) (c1 : Container) (log1 : Log)
    (hfin : (Make h fuel c log A ps).final = some (c1, log1)) :
    ∀ k v, c.shared k = some v → c1.shared k = some v := by
  refine Make_rel h (fun c _ c1 _ => ∀ k v, c.shared k = some v → c1.shared k = some v)
    (fun _ _ _ _ hk => hk) (fun _ _ _ _ _ _ h1 h2 k v hk => h2 k v (h1 k v hk))
    (fun _ _ _ _ _ _ _ hk => hk) ?_ fuel c log A ps c1 log1 hfin
  intro c log c1 log1 A b w hR _ hs _ _ k v hk
  have hne : k ≠ utils.GetKey A := by
    intro heq
    rw [heq, hs] at hk
    exact absurd hk (by simp)
  simpa [mapSet, hne] using hR k v hk

/-- Every `Invoke` that ends keeps each shared-cache entry it found. -/
theorem Invoke_cache_mono (h : Host) (fuel : Nat) (c : Container) (log : Log) (A : Value)
    (c1 : Container) (log1 : Log)
    (hfin : (Invoke h fuel c log A).final = some (c1, log1)) :
    ∀ k v, c.shared k = some v → c1.shared k = some v :=
  InvokeWith_rel h _ (fun c _ c1 _ => ∀ k v, c.shared k = some v → c1.shared k = some v)
    (fun _ _ _ _ hk => hk) (fun _ _ _ _ _ _ h1 h2 k v hk => h2 k v (h1 k v hk))
    (fun _ _ _ _ _ _ _ hk => hk)
    (fun c log t c1 log1 hf => Make_cache_mono h fuel c log t [] c1 log1 hf)
    c log A c1 log1 hfin

/-- `Get` ends in the state in which its `Make` ends. -/
theorem Get_final (h : Host) (fuel : Nat) (c : Container) (log : Log) (A : Value) :
    (Get h fuel c log A).final = (Make h fuel c log A []).final := by
  unfold Get
  cases hm : Make h fuel c log A [] with
  | ret r c1 log1 =>
    obtain ⟨v, e⟩ := r
    cases e <;> rfl
  | panic e c1 log1 => rfl
  | diverge => rfl

/-! ## A factory is not called while its parameters are resolved, even on failure -/

/-- When the loop of `extractParameters` returns, the arguments it adds are the values
of the calls `Make(T1)`, ..., `Make(Tn)` made in order, each from the state the one
before left. -/
theorem resolved_of_loop (make : MakeFn) :
    ∀ (ts : List Value) (c : Container) (log : Log) (args r : List Value) (c1 : Container)
      (log1 : Log), extractParameters.loop make ts c log args = .ret r c1 log1 →
      ∃ vs, r = args ++ vs ∧ ResolvedInOrder make ts c log vs c1 log1 := by
  intro ts
  induction ts with
  | nil =>
    intro c log args r c1 log1 hl
    simp only [extractParameters.loop, Outcome.ret.injEq] at hl
    obtain ⟨rfl, rfl, rfl⟩ := hl
    exact ⟨[], by simp, .done c log⟩
  | cons t ts ih =>
    intro c log args r c1 log1 hl
    simp only [extractParameters.loop] at hl
    cases hm : make c log t with
    | ret p c2 log2 =>
      obtain ⟨v, e⟩ := p
      rw [hm] at hl
      cases e with
      | none =>
        obtain ⟨vs, hr, hres⟩ := ih c2 log2 (args ++ [v]) r c1 log1 hl
        exact ⟨v :: vs, by rw [hr]; simp, .step t ts c log v c2 log2 vs c1 log1 hm hres⟩
      | some err => simp at hl
    | panic e c2 log2 => rw [hm] at hl; simp at hl
    | diverge => rw [hm] at hl; simp at hl


/-! ## Termination when the dependency relation is well-founded -/

/-- An `Invoke` that ends within some fuel ends the same way with any larger fuel. -/
theorem Invoke_more_fuel (h : Host) (fuel extra : Nat) (c : Container) (log : Log)
    (A : Value) (hnd : Invoke h fuel c log A ≠ .diverge) :
    Invoke h (fuel + extra) c log A = Invoke h fuel c log A :=
  InvokeWith_mono h _ _
    (fun c log t hd => Make_more_fuel h fuel extra c log t [] hd) c log A hnd

/-- The loop ends when the `Make` of each of its types ends. -/
theorem loop_terminates (make : MakeFn) (I : Container → Prop)
    (hkeep : ∀ c log t c1 log1, I c → (make c log t).final = some (c1, log1) → I c1) :
    ∀ (ts : List String),
      (∀ p, p ∈ ts → ∀ c log, I c → make c log (.typ p) ≠ .diverge) →
      ∀ (c : Container) (log : Log) (args : List Value), I c →
        extractParameters.loop make (ts.map Value.typ) c log args ≠ .diverge := by
  intro ts
  induction ts with
  | nil =>
    intro _ c log args _
    simp [extractParameters.loop]
  | cons t ts ih =>
    intro hnd c log args hI
    simp only [List.map_cons, extractParameters.loop]
    cases hm : make c log (.typ t) with
    | ret a c1 log1 =>
      obtain ⟨arg, err⟩ := a
      cases err with
      | some e => simp
      | none =>
        exact ih (fun p hp => hnd p (List.mem_cons_of_mem _ hp)) c1 log1 _
          (hkeep c log _ c1 log1 hI (by rw [hm]; rfl))
    | panic e c1 log1 => simp
    | diverge => exact absurd hm (hnd t (List.mem_cons_self _ _) c log hI)

/-- One fuel serves all the types of a list when each has a fuel of its own. -/
theorem fuel_for_all (h : Host) (c : Container) (params : List String)
    (hall : ∀ p, p ∈ params → ∃ N, ∀ c1 log1, c1.bindings = c.bindings →
      c1.aliases = c.aliases → Make h N c1 log1 (.typ p) [] ≠ .diverge) :
    ∃ N, ∀ p, p ∈ params → ∀ c1 log1, c1.bindings = c.bindings →
      c1.aliases = c.aliases → Make h N c1 log1 (.typ p) [] ≠ .diverge := by
  induction params with
  | nil => exact ⟨0, fun p hp => absurd hp (List.not_mem_nil p)⟩
  | cons q qs ih =>
    obtain ⟨N1, h1⟩ := hall q (List.mem_cons_self _ _)
    obtain ⟨N2, h2⟩ := ih (fun p hp => hall p (List.mem_cons_of_mem _ hp))
    refine ⟨N1 + N2, ?_⟩
    intro p hp c1 log1 hb ha
    rcases List.mem_cons.mp hp with rfl | hp
    · rw [Make_more_fuel h N1 N2 c1 log1 _ [] (h1 c1 log1 hb ha)]
      exact h1 c1 log1 hb ha
    · rw [Nat.add_comm, Make_more_fuel h N2 N1 c1 log1 _ [] (h2 p hp c1 log1 hb ha)]
      exact h2 p hp c1 log1 hb ha

/-- With a fuel that serves every declared parameter type, `Invoke` of the function
value ends. -/
theorem Invoke_terminates (h : Host) (c : Container) (name : String) (params : List String)
    (N : Nat)
    (hN : ∀ p, p ∈ params → ∀ c1 log1, c1.bindings = c.bindings →
      c1.aliases = c.aliases → Make h N c1 log1 (.typ p) [] ≠ .diverge)
    (c1 : Container) (log1 : Log) (hb : c1.bindings = c.bindings)
    (ha : c1.aliases = c.aliases) :
    Invoke h N c1 log1 (.func name params) ≠ .diverge := by
  rw [Invoke_func]
  have hl := loop_terminates (fun c1 log1 a => Make h N c1 log1 a [])
    (fun c0 => c0.bindings = c.bindings ∧ c0.aliases = c.aliases)
    (by
      intro c0 l0 t c2 l2 hI hf
      obtain ⟨hb2, ha2, _, _⟩ := Make_frame h N c0 l0 t [] c2 l2 hf
      exact ⟨hb2.trans hI.1, ha2.trans hI.2⟩)
    params (fun p hp c0 l0 hI => hN p hp c0 l0 hI.1 hI.2) c1 log1 [] ⟨hb, ha⟩
  cases hloop : extractParameters.loop (fun c1 log1 a => Make h N c1 log1 a [])
      (params.map Value.typ) c1 log1 [] with
  | ret args c2 log2 => simp
  | panic e c2 log2 => simp
  | diverge => exact absurd hloop hl

/-- When the dependency relation is well-founded, each key has a fuel within which
`Make` of an abstract with that key ends, whatever the shared cache holds. -/
theorem key_terminates (h : Host) (c : Container)
    (hwf : WellFounded (fun p k => DependsOn c k p)) :
    ∀ k, ∃ N, ∀ c1 log1 A, c1.bindings = c.bindings → c1.aliases = c.aliases →
      utils.GetKey A = k → utils.IsFunc A = false →
      Make h N c1 log1 A [] ≠ .diverge := by
  intro k
  induction k using hwf.induction with
  | _ k ih =>
    have hbase : ∀ conc sh, getBinding c (.typ k) ≠ .ok ⟨conc, sh⟩ ∨ utils.IsFunc conc = false →
        ∀ c1 log1 A, c1.bindings = c.bindings → c1.aliases = c.aliases →
        utils.GetKey A = k → utils.IsFunc A = false →
        ∀ b, getBinding c1 A = .ok b → b = ⟨conc, sh⟩ →
        Make h 1 c1 log1 A [] ≠ .diverge := by
      intro conc sh hor c1 log1 A hb ha hk hA b hg hbe
      subst hbe
      cases hs : c1.shared (utils.GetKey A) with
      | some v => rw [Make_cached h 0 c1 log1 A [] v hA hs]; simp
      | none =>
        rcases hor with hne | hnf
        · exfalso
          apply hne
          rw [← getBinding_congr c c1 _ hb ha, ← hk]
          exact (getBinding_key_congr c1 (.typ (utils.GetKey A)) A _ rfl).mpr hg
        · rw [Make_constant h 0 c1 log1 A [] ⟨conc, sh⟩ hA hs hg hnf]; simp
    cases hgk : getBinding c (.typ k) with
    | error e =>
      refine ⟨1, ?_⟩
      intro c1 log1 A hb ha hk hA
      cases hs : c1.shared (utils.GetKey A) with
      | some v => rw [Make_cached h 0 c1 log1 A [] v hA hs]; simp
      | none =>
        cases hg : getBinding c1 A with
        | error e1 => rw [Make_error h 0 c1 log1 A [] e1 hA hs hg]; simp
        | ok b =>
          exfalso
          have := (getBinding_key_congr c1 (.typ (utils.GetKey A)) A _ rfl).mpr hg
          rw [getBinding_congr c c1 _ hb ha, hk, hgk] at this
          simp at this
    | ok b0 =>
      obtain ⟨conc, sh⟩ := b0
      have hgA : ∀ c1 A, c1.bindings = c.bindings → c1.aliases = c.aliases →
          utils.GetKey A = k → getBinding c1 A = .ok ⟨conc, sh⟩ := by
        intro c1 A hb ha hk
        apply (getBinding_key_congr c1 (.typ (utils.GetKey A)) A _ rfl).mp
        rw [getBinding_congr c c1 _ hb ha, hk]
        exact hgk
      cases hconc : utils.IsFunc conc with
      | false =>
        refine ⟨1, ?_⟩
        intro c1 log1 A hb ha hk hA
        exact hbase conc sh (Or.inr hconc) c1 log1 A hb ha hk hA _ (hgA c1 A hb ha hk) rfl
      | true =>
        cases conc with
        | func name params =>
          have hall : ∀ p, p ∈ params → ∃ N, ∀ c1 log1, c1.bindings = c.bindings →
              c1.aliases = c.aliases → Make h N c1 log1 (.typ p) [] ≠ .diverge := by
            intro p hp
            obtain ⟨N, hN⟩ := ih p ⟨name, params, sh, hgk, hp⟩
            exact ⟨N, fun c1 log1 hb ha => hN c1 log1 (.typ p) hb ha rfl rfl⟩
          obtain ⟨N, hN⟩ := fuel_for_all h c params hall
          refine ⟨N + 1, ?_⟩
          intro c1 log1 A hb ha hk hA
          cases hs : c1.shared (utils.GetKey A) with
          | some v => rw [Make_cached h N c1 log1 A [] v hA hs]; simp
          | none =>
            rw [Make_factory_auto h N c1 log1 A name params sh hA hs (hgA c1 A hb ha hk)]
            have hi := Invoke_terminates h c name params N hN c1 log1 hb ha
            cases hinv : Invoke h N c1 log1 (.func name params) with
            | ret v c2 log2 => simp
            | panic e c2 log2 => simp
            | diverge => exact absurd hinv hi
        | _ => simp [utils.IsFunc] at hconc

/-! ## Factories that are functions of their arguments: the two embeddings agree -/

theorem GetConcrete_ofPure (p : Host) (api : Reentrant.Api) (b : Binding)
    (ps : List Value) (c : Container) (log : Log) :
    Reentrant.GetConcrete (Reentrant.ofPure p) api b ps c log =
      .ret (b.GetConcrete p ps log).1 c (b.GetConcrete p ps log).2 := by
  unfold Reentrant.GetConcrete Binding.GetConcrete
  cases b.Concrete <;> rfl

theorem InvokeWith_ofPure (p : Host) (api : Reentrant.Api) (c : Container) (log : Log)
    (a : Value) :
    Reentrant.InvokeWith (Reentrant.ofPure p) api c log a =
      InvokeWith p (fun c1 log1 t => api.make c1 log1 t []) c log a := by
  unfold Reentrant.InvokeWith InvokeWith
  simp only []
  split
  · rfl
  · cases extractParameters (fun c1 log1 t => api.make c1 log1 t []) c log
        (binding.New a false).Concrete with
    | ret ps c1 log1 => simp only [GetConcrete_ofPure]
    | panic e c1 log1 => rfl
    | diverge => rfl

theorem MakeWith_ofPure (p : Host) (api : Reentrant.Api) (n : Nat)
    (hmk : ∀ c log t, api.make c log t [] = Make p n c log t [])
    (c : Container) (log : Log) (a : Value) (ps : List Value) :
    Reentrant.MakeWith (Reentrant.ofPure p) api c log a ps = Make p (n + 1) c log a ps := by
  have hfun : (fun c1 log1 t => api.make c1 log1 t []) =
      (fun c1 log1 t => Make p n c1 log1 t []) := by
    funext c1 log1 t
    exact hmk c1 log1 t
  unfold Reentrant.MakeWith
  rw [Make.eq_def p (n + 1)]
  simp only [InvokeWith_ofPure, GetConcrete_ofPure, hfun]

/-- For factories that are functions of their arguments, `Make` of the two embeddings
is the same function of fuel, state and arguments. -/
theorem Make_ofPure (p : Host) :
    ∀ (n : Nat) (c : Container) (log : Log) (a : Value) (ps : List Value),
      Reentrant.Make (Reentrant.ofPure p) n c log a ps = Make p n c log a ps := by
  intro n
  induction n with
  | zero => intro c log a ps; rfl
  | succ n ih =>
    intro c log a ps
    exact MakeWith_ofPure p _ n (fun c log t => ih c log t []) c log a ps

/-- For factories that are functions of their arguments, `Invoke` with one more level
is `Invoke` of the other embedding. -/
theorem Invoke_ofPure (p : Host) (n : Nat) (c : Container) (log : Log) (a : Value) :
    Reentrant.Invoke (Reentrant.ofPure p) (n + 1) c log a = Invoke p n c log a := by
  have hfun : (fun c1 log1 t => (Reentrant.level (Reentrant.ofPure p) n).make c1 log1 t []) =
      (fun c1 log1 t => Make p n c1 log1 t []) := by
    funext c1 log1 t
    exact Make_ofPure p n c1 log1 t []
  show Reentrant.InvokeWith (Reentrant.ofPure p) (Reentrant.level (Reentrant.ofPure p) n)
    c log a = _
  rw [InvokeWith_ofPure, hfun]
  rfl

/-- For factories that are functions of their arguments, `Get` of the two embeddings
is the same. -/
theorem Get_ofPure (p : Host) (n : Nat) (c : Container) (log : Log) (a : Value) :
    Reentrant.Get (Reentrant.ofPure p) n c log a = Get p n c log a := by
  unfold Reentrant.Get Get
  rw [Make_ofPure]

/-! ## Reading and writing the cache, whatever the factories do -/

/-- C1: for every container state and every abstract that is not callable, has no
shared-cache entry under its key and no binding reachable directly or through the
alias table, `Make` with any parameters and any positive fuel returns
`(nil, BindingMissingError{abstract})` as a value, calls no factory and leaves the
three tables as they were. -/
theorem Make_unregistered (h : Host) (fuel : Nat) (c : Container) (log : Log) (A : Value)
    (ps : List Value) (hA : utils.IsFunc A = false)
    (hs : c.shared (utils.GetKey A) = none)
    (hdirect : c.bindings (utils.GetKey A) = none)
    (halias : ∀ t, c.aliases (utils.GetKey A) = some t → c.bindings t = none) :
    Make h (fuel + 1) c log A ps = .ret (.nil, some (.BindingMissingError A)) c log := by
  apply Make_error h fuel c log A ps _ hA hs
  rw [getBinding_error_iff]
  refine ⟨?_, rfl⟩
  cases ha : c.aliases (utils.GetKey A) with
  | none => simpa using hdirect
  | some t => simpa using halias t ha

/-- C1 at a concrete input: a fresh container asked for the name "db" with one
explicit parameter. -/
theorem Make_unregistered_witness :
    utils.IsFunc (.str "db") = false ∧ New.shared "db" = none ∧ New.bindings "db" = none ∧
    Make exampleHost 1 New [] (.str "db") [.int 1] =
      .ret (.nil, some (.BindingMissingError (.str "db"))) New [] :=
  ⟨rfl, rfl, rfl,
    Make_unregistered exampleHost 0 New [] (.str "db") [.int 1] rfl rfl rfl (fun _ _ => rfl)⟩

/-! ## C2: a shared factory binding -/

/-- C3 (amended): in every container state where the key of `A` has no alias-table
entry and no shared-cache entry, for `A` and `C` not callable, once `Bind(A, C)` has
succeeded each of any number of `Make(A, params...)` calls made one after the other
returns `(C, nil)` (`(A, nil)` when `A` is struct-shaped, the struct descriptor being
the stored concrete), calls no factory and leaves the three tables as they were, so no
shared-cache entry is created. -/
theorem Make_bound_constant (h : Host) (fuel : Nat) (c c1 : Container) (log log1 : Log)
    (A C : Value) (pss : List (List Value))
    (hA : utils.IsFunc A = false) (hC : utils.IsFunc C = false)
    (hal : c.aliases (utils.GetKey A) = none) (hsh : c.shared (utils.GetKey A) = none)
    (hbind : Bind c log A C = .ret () c1 log1) :
    makeEach h (fuel + 1) A pss c1 log1 =
      some (pss.map (fun _ => (if utils.IsStruct A then A else C, none)), c1, log1) := by
  have hb := getBinding_after_provide c c1 log log1 A C false hal hbind
  obtain ⟨_, hc1⟩ := provide_ret_inv c c1 log log1 A C false hbind
  have hs1 : c1.shared (utils.GetKey A) = none := by rw [hc1]; exact hsh
  have hconc : utils.IsFunc (binding.New (if utils.IsStruct A then A else C) false).Concrete
      = false := by
    simp only [binding.New]
    split
    · exact hA
    · exact hC
  have hmk : ∀ ps, Make h (fuel + 1) c1 log1 A ps =
      .ret (if utils.IsStruct A then A else C, none) c1 log1 := by
    intro ps
    rw [Make_constant h fuel c1 log1 A ps _ hA hs1 hb hconc]
    simp [binding.New]
  induction pss with
  | nil => rfl
  | cons ps rest ih =>
    simp only [makeEach, hmk, ih, List.map_cons]

/-- C3 (amended) at a concrete input: on a fresh container `Bind("port", 8080)` and
then three `Make("port")` calls, one of them with a parameter. -/
theorem Make_bound_constant_witness :
    ∃ c1, Bind New [] (.str "port") (.int 8080) = .ret () c1 [] ∧
      makeEach exampleHost 1 (.str "port") [[], [.int 1], []] c1 [] =
        some ([(.int 8080, none), (.int 8080, none), (.int 8080, none)], c1, []) :=
  ⟨_, rfl,
    Make_bound_constant exampleHost 0 New _ [] [] (.str "port") (.int 8080) [[], [.int 1], []]
      rfl rfl rfl rfl rfl⟩

/-- C3 as stated fails in reachable states. First: after `Bind("Z", 1)` and
`Alias("Z", "A")`, `Bind("A", 2)` succeeds but `Make("A")` follows the alias and
returns 1. Second: after `BindShared("A", 1)` and `Make("A")`, `Bind("A", 2)`
succeeds but `Make("A")` returns the cached 1. -/
theorem Make_bound_constant_counterexample :
    (∃ c log, runOps exampleHost 1
        [.Bind (.str "Z") (.int 1), .Alias (.str "Z") "A"] New [] = some (c, log) ∧
      ∃ c1 log1, Bind c log (.str "A") (.int 2) = .ret () c1 log1 ∧
        Make exampleHost 1 c1 log1 (.str "A") [] = .ret (.int 1, none) c1 log1 ∧
        (Make exampleHost 1 c1 log1 (.str "A") []).returned ≠ some (.int 2, none)) ∧
    (∃ c log, runOps exampleHost 1
        [.BindShared (.str "A") (.int 1), .Make (.str "A") []] New [] = some (c, log) ∧
      ∃ c1 log1, Bind c log (.str "A") (.int 2) = .ret () c1 log1 ∧
        Make exampleHost 1 c1 log1 (.str "A") [] = .ret (.int 1, none) c1 log1 ∧
        (Make exampleHost 1 c1 log1 (.str "A") []).returned ≠ some (.int 2, none)) := by
  refine ⟨⟨_, _, rfl, _, _, rfl, rfl, ?_⟩, ⟨_, _, rfl, _, _, rfl, rfl, ?_⟩⟩
  · intro hne
    have h2 : (some (Value.int 1, (none : Option Error)) : Option (Value × Option Error)) =
        some (Value.int 2, none) := hne
    simp at h2
  · intro hne
    have h2 : (some (Value.int 1, (none : Option Error)) : Option (Value × Option Error)) =
        some (Value.int 2, none) := hne
    simp at h2

/-! ## C4: aliasing a named binding -/

/-- Two abstracts that are not callable, read the same cache entry and resolve to the
same unshared binding are made alike. -/
theorem Make_congr_unshared (h : Host) (fuel : Nat) (c : Container) (log : Log)
    (A B : Value) (ps : List Value) (b : Binding)
    (hA : utils.IsFunc A = false) (hB : utils.IsFunc B = false)
    (hs : c.shared (utils.GetKey A) = c.shared (utils.GetKey B))
    (hbA : getBinding c A = .ok b) (hbB : getBinding c B = .ok b)
    (hsh : b.Shared = false) :
    Make h fuel c log A ps = Make h fuel c log B ps := by
  cases fuel with
  | zero => rfl
  | succ fuel =>
    cases hsB : c.shared (utils.GetKey B) with
    | some w =>
      rw [Make_cached h fuel c log A ps w hA (hs.trans hsB),
        Make_cached h fuel c log B ps w hB hsB]
    | none =>
      have hsA : c.shared (utils.GetKey A) = none := hs.trans hsB
      simp [Make, hA, hB, hsA, hsB, hbA, hbB, hsh]

/-- C4 (amended): for string names `X` and `Y` and any value `v`, in a container state
whose alias table has no entry under `X`: if the binding table has no entry under `X`,
`Alias(X, Y)` panics with `ErrAliasAbstractMissing` and changes no table; `Bind(X, v)`
succeeds and after it `Alias(X, Y)` succeeds and records `Y ↦ X`; and if the shared
cache holds the same thing under `X` and under `Y` (for instance nothing), then
`Make(Y, params...)` ends exactly as `Make(X, params...)` does: same instance, same
error, same final state. -/
theorem Alias_then_Make (h : Host) (c : Container) (log : Log) (X Y : String) (v : Value)
    (hX : c.aliases X = none) :
    (c.bindings X = none →
      Alias c log (.str X) Y = .panic .ErrAliasAbstractMissing c log) ∧
    ∃ c1 c2, Bind c log (.str X) v = .ret () c1 log ∧
      Alias c1 log (.str X) Y = .ret () c2 log ∧
      c2.aliases Y = some X ∧
      (c.shared X = c.shared Y → ∀ (fuel : Nat) (log1 : Log) (ps : List Value),
        Make h fuel c2 log1 (.str Y) ps = Make h fuel c2 log1 (.str X) ps) := by
  constructor
  · intro hb
    have he : getBinding c (.str X) = .error (.BindingMissingError (.str X)) := by
      rw [getBinding_error_iff]
      simp [utils.GetKey, hX, hb]
    simp [Alias, he]
  · have hbind : Bind c log (.str X) v =
        .ret () { c with bindings := mapSet c.bindings X (binding.New v false) } log := by
      simp [Bind, provide, utils.IsInterface, utils.IsStruct, utils.GetKey]
    have hg1 : getBinding { c with bindings := mapSet c.bindings X (binding.New v false) }
        (.str X) = .ok (binding.New v false) := by
      apply getBinding_direct
      · exact hX
      · simp [mapSet, utils.GetKey]
    refine ⟨_, { bindings := mapSet c.bindings X (binding.New v false), shared := c.shared,
                 aliases := mapSet c.aliases Y X }, hbind, ?_, ?_, ?_⟩
    · simp only [Alias, hg1, utils.GetKey]
    · simp [mapSet, utils.GetKey]
    · intro hs fuel log1 ps
      apply Make_congr_unshared h fuel _ log1 (.str Y) (.str X) ps (binding.New v false)
        rfl rfl
      · exact hs.symm
      · apply getBinding_aliased _ _ X
        · simp [mapSet, utils.GetKey]
        · simp [mapSet]
      · by_cases hxy : X = Y
        · apply getBinding_aliased _ _ X
          · simp [mapSet, utils.GetKey, hxy]
          · simp [mapSet]
        · apply getBinding_direct
          · simp [mapSet, utils.GetKey, hxy, hX]
          · simp [mapSet, utils.GetKey]
      · rfl

/-- C4 (amended) at a concrete input: names "X" and "Y" on a fresh container, value 7. -/
theorem Alias_then_Make_witness :
    New.aliases "X" = none ∧
    ((New.bindings "X" = none →
      Alias New [] (.str "X") "Y" = .panic .ErrAliasAbstractMissing New []) ∧
    ∃ c1 c2, Bind New [] (.str "X") (.int 7) = .ret () c1 [] ∧
      Alias c1 [] (.str "X") "Y" = .ret () c2 [] ∧
      c2.aliases "Y" = some "X" ∧
      (New.shared "X" = New.shared "Y" → ∀ (fuel : Nat) (log1 : Log) (ps : List Value),
        Make exampleHost fuel c2 log1 (.str "Y") ps =
          Make exampleHost fuel c2 log1 (.str "X") ps)) :=
  ⟨rfl, Alias_then_Make exampleHost New [] "X" "Y" (.int 7) rfl⟩

/-- C4 as stated fails. First: after `Bind("W", 1)`, `Alias("W", "Z")` and
`Alias("Z", "X")` the container has no binding for "X" (neither an entry under "X" nor
one reachable through the alias table); `Bind("X", 2)` succeeds, yet `Alias("X", "Y")`
still panics with `ErrAliasAbstractMissing`. Second: after `BindShared("Y", 5)` and
`Make("Y")` the container has no binding for "X"; `Bind("X", 7)` and `Alias("X", "Y")`
succeed, yet `Make("Y")` returns the cached 5 and `Make("X")` returns 7. -/
theorem Alias_then_Make_counterexample :
    (∃ c log, runOps exampleHost 1
        [.Bind (.str "W") (.int 1), .Alias (.str "W") "Z", .Alias (.str "Z") "X"] New [] =
          some (c, log) ∧
      c.bindings "X" = none ∧ Has c log (.str "X") = .ret false c log ∧
      ∃ c1, Bind c log (.str "X") (.int 2) = .ret () c1 log ∧
        Alias c1 log (.str "X") "Y" = .panic .ErrAliasAbstractMissing c1 log) ∧
    (∃ c log, runOps exampleHost 1
        [.BindShared (.str "Y") (.int 5), .Make (.str "Y") []] New [] = some (c, log) ∧
      c.bindings "X" = none ∧ Has c log (.str "X") = .ret false c log ∧
      ∃ c1 c2, Bind c log (.str "X") (.int 7) = .ret () c1 log ∧
        Alias c1 log (.str "X") "Y" = .ret () c2 log ∧
        Make exampleHost 1 c2 log (.str "Y") [] = .ret (.int 5, none) c2 log ∧
        Make exampleHost 1 c2 log (.str "X") [] = .ret (.int 7, none) c2 log) :=
  ⟨⟨_, _, rfl, rfl, rfl, _, rfl, rfl⟩, ⟨_, _, rfl, rfl, rfl, _, _, rfl, rfl, rfl, rfl⟩⟩

/-! ## C5 and C6: `Has` -/

/-- What `Has` computes, in every container state: it returns normally, leaves the
three tables (and the call log) as they were, and returns true exactly when either the
alias table maps the key to a key that has an entry in the binding table, or the alias
table has no entry under the key and the binding table has one. -/
theorem Has_iff (c : Container) (log : Log) (A : Value) :
    ∃ b, Has c log A = .ret b c log ∧
      (b = true ↔
        ((∃ t, c.aliases (utils.GetKey A) = some t ∧ (c.bindings t).isSome = true) ∨
         (c.aliases (utils.GetKey A) = none ∧
           (c.bindings (utils.GetKey A)).isSome = true))) := by
  unfold Has getBinding
  simp only []
  cases ha : c.aliases (utils.GetKey A) with
  | none =>
    cases hb : c.bindings (utils.GetKey A) with
    | none => exact ⟨false, by simp [hb], by simp⟩
    | some b => exact ⟨true, by simp [hb], by simp⟩
  | some t =>
    cases hb : c.bindings t with
    | none => exact ⟨false, by simp [hb], by simp [hb]⟩
    | some b => exact ⟨true, by simp [hb], by simp [hb]⟩

/-- A fresh container has no alias, so every alias it has is bound. -/
theorem AliasesBound_New : AliasesBound New := by
  intro k t hk
  simp [New] at hk

/-- A registration keeps every alias bound: it only adds to the binding table. -/
theorem AliasesBound_provide (c c1 : Container) (log log1 : Log) (A v : Value) (sh : Bool)
    (hinv : AliasesBound c) (hfin : (provide c log A v sh).final = some (c1, log1)) :
    AliasesBound c1 := by
  have hkeep : ∀ b, AliasesBound { c with bindings := mapSet c.bindings (utils.GetKey A) b } := by
    intro b k t hk
    have h1 := hinv k t hk
    simp only [mapSet]
    split
    · rfl
    · exact h1
  unfold provide at hfin
  split at hfin
  · simp only [Outcome.final, Option.some.injEq, Prod.mk.injEq] at hfin
    rw [← hfin.1]; exact hinv
  · split at hfin
    · split at hfin
      · simp only [Outcome.final, Option.some.injEq, Prod.mk.injEq] at hfin
        rw [← hfin.1]; exact hinv
      · simp only [Outcome.final, Option.some.injEq, Prod.mk.injEq] at hfin
        rw [← hfin.1]; exact hkeep _
    · simp only [Outcome.final, Option.some.injEq, Prod.mk.injEq] at hfin
      rw [← hfin.1]; exact hkeep _

/-- An `Alias(X, name)` whose target `X` is not itself an alias name keeps every alias
bound: the key it stores is the key its guard looked up. -/
theorem AliasesBound_Alias (c c1 : Container) (log log1 : Log) (X : Value) (name : String)
    (hinv : AliasesBound c) (hX : c.aliases (utils.GetKey X) = none)
    (hfin : (Alias c log X name).final = some (c1, log1)) : AliasesBound c1 := by
  unfold Alias at hfin
  cases hg : getBinding c X with
  | error e =>
    simp only [hg, Outcome.final, Option.some.injEq, Prod.mk.injEq] at hfin
    rw [← hfin.1]; exact hinv
  | ok b =>
    simp only [hg, Outcome.final, Option.some.injEq, Prod.mk.injEq] at hfin
    rw [getBinding_ok_iff, hX] at hg
    rw [← hfin.1]
    intro k t hk
    simp only [mapSet] at hk
    split at hk
    · simp only [Option.some.injEq] at hk
      rw [← hk]
      simp only [] at hg
      simp [hg]
    · exact hinv k t hk

/-- Every call of the public surface that ends keeps every alias bound, except an
`Alias` whose target is itself an alias name. -/
theorem AliasesBound_run (h : Host) (fuel : Nat) (c c1 : Container) (log log1 : Log)
    (op : Op) (hinv : AliasesBound c)
    (hop : ∀ X name, op = .Alias X name → c.aliases (utils.GetKey X) = none)
    (hrun : op.run h fuel c log = some (c1, log1)) : AliasesBound c1 := by
  have hframe : ∀ c2 log2, Frame c log c2 log2 → AliasesBound c2 := by
    intro c2 log2 hf k t hk
    rw [hf.2.1] at hk
    rw [hf.1]
    exact hinv k t hk
  cases op with
  | Bind a w => exact AliasesBound_provide c c1 log log1 a w false hinv hrun
  | BindShared a w => exact AliasesBound_provide c c1 log log1 a w true hinv hrun
  | Singleton a w => exact AliasesBound_provide c c1 log log1 a w true hinv hrun
  | Alias a name => exact AliasesBound_Alias c c1 log log1 a name hinv (hop a name rfl) hrun
  | Make a ps => exact hframe c1 log1 (Make_frame h fuel c log a ps c1 log1 hrun)
  | Get a =>
    have hrun2 : (Get h fuel c log a).final = some (c1, log1) := hrun
    rw [Get_final] at hrun2
    exact hframe c1 log1 (Make_frame h fuel c log a [] c1 log1 hrun2)
  | Has a =>
    have hrun2 : (Has c log a).final = some (c1, log1) := hrun
    unfold Has at hrun2
    cases hg : getBinding c a <;>
      simp only [hg, Outcome.final, Option.some.injEq, Prod.mk.injEq] at hrun2 <;>
      (rw [← hrun2.1]; exact hinv)
  | Invoke a => exact hframe c1 log1 (Invoke_frame h fuel c log a c1 log1 hrun)

/-- Where every alias is bound, `Has(A)` is true exactly when the binding table has an
entry under the key of `A` or the alias table maps that key to a key that has one. -/
theorem Has_iff_of_AliasesBound (c : Container) (log : Log) (A : Value)
    (hinv : AliasesBound c) :
    ∃ b, Has c log A = .ret b c log ∧
      (b = true ↔
        ((c.bindings (utils.GetKey A)).isSome = true ∨
          ∃ t, c.aliases (utils.GetKey A) = some t ∧ (c.bindings t).isSome = true)) := by
  obtain ⟨b, hb, hiff⟩ := Has_iff c log A
  refine ⟨b, hb, hiff.trans ⟨?_, ?_⟩⟩
  · rintro (⟨t, ht, hbt⟩ | ⟨_, hk⟩)
    · exact Or.inr ⟨t, ht, hbt⟩
    · exact Or.inl hk
  · rintro (hk | ⟨t, ht, hbt⟩)
    · cases ha : c.aliases (utils.GetKey A) with
      | none => exact Or.inr ⟨rfl, hk⟩
      | some t => exact Or.inl ⟨t, rfl, hinv _ t ha⟩
    · exact Or.inl ⟨t, ht, hbt⟩

/-- Where every alias is bound and `Has(A)` is false, a registration of `A` that
returns makes `Has(A)` true and leaves the shared cache as it was. -/
theorem Has_after_provide (c c1 : Container) (log log1 : Log) (A v : Value) (sh : Bool)
    (hinv : AliasesBound c) (hhas : Has c log A = .ret false c log)
    (hp : provide c log A v sh = .ret () c1 log1) :
    Has c1 log1 A = .ret true c1 log1 ∧ c1.shared = c.shared := by
  have hA : c.aliases (utils.GetKey A) = none := by
    cases ha : c.aliases (utils.GetKey A) with
    | none => rfl
    | some t =>
      have hb := hinv _ t ha
      cases hbt : c.bindings t with
      | none => rw [hbt] at hb; simp at hb
      | some b =>
        have hg := getBinding_aliased c A t b ha hbt
        simp [Has, hg] at hhas
  have hg := getBinding_after_provide c c1 log log1 A v sh hA hp
  obtain ⟨_, hc1⟩ := provide_ret_inv c c1 log log1 A v sh hp
  exact ⟨by simp [Has, hg], by rw [hc1]⟩

/-- An `Alias(X, name)` that returns makes `Has(name)` true whenever the binding table
has an entry under the key of `X` itself. -/
theorem Has_after_Alias (c c1 : Container) (log log1 : Log) (X : Value) (name : String)
    (hX : (c.bindings (utils.GetKey X)).isSome = true)
    (hal : Alias c log X name = .ret () c1 log1) :
    Has c1 log1 (.str name) = .ret true c1 log1 ∧ c1.shared = c.shared := by
  unfold Alias at hal
  cases hg : getBinding c X with
  | error e => simp [hg] at hal
  | ok b =>
    simp only [hg, Outcome.ret.injEq, true_and] at hal
    obtain ⟨rfl, rfl⟩ := hal
    cases hb : c.bindings (utils.GetKey X) with
    | none => rw [hb] at hX; simp at hX
    | some b2 =>
      have hg2 : getBinding
          { c with aliases := mapSet c.aliases (utils.GetKey (.str name)) (utils.GetKey X) }
          (.str name) = .ok b2 := by
        apply getBinding_aliased _ _ (utils.GetKey X)
        · simp [mapSet]
        · exact hb
      exact ⟨by simp [Has, hg2], rfl⟩

/-- C5 fails on the code, through the defect of C16. Where every alias names a key
that has a binding, `Has(A)` is true exactly when the binding table has an entry under
the key of `A` or the alias table maps that key to a key that has one, and `Has`
changes nothing; a fresh container is such a state. But `Bind("W", 1)`,
`Alias("W", "Z")`, `Alias("Z", "X")`, `Bind("X", 2)` all return normally and lead to a
state where the alias "X" names the unbound key "Z": there the binding table has an
entry under "X", yet `Has("X")` returns false. -/
theorem Has_misses_binding :
    (∀ (c : Container) (log : Log) (A : Value), AliasesBound c →
      ∃ b, Has c log A = .ret b c log ∧
        (b = true ↔
          ((c.bindings (utils.GetKey A)).isSome = true ∨
            ∃ t, c.aliases (utils.GetKey A) = some t ∧ (c.bindings t).isSome = true))) ∧
    AliasesBound New ∧
    runOps exampleHost 1
        [.Bind (.str "W") (.int 1), .Alias (.str "W") "Z", .Alias (.str "Z") "X",
         .Bind (.str "X") (.int 2)] New [] = some (aliasOfAliasBound, []) ∧
    aliasOfAliasBound.aliases "X" = some "Z" ∧
    aliasOfAliasBound.bindings "Z" = none ∧
    (aliasOfAliasBound.bindings (utils.GetKey (.str "X"))).isSome = true ∧
    Has aliasOfAliasBound [] (.str "X") = .ret false aliasOfAliasBound [] :=
  ⟨fun c log A hinv => Has_iff_of_AliasesBound c log A hinv, AliasesBound_New,
    rfl, rfl, rfl, rfl, rfl⟩

/-- C6 fails on the code, through the defect of C16. Where every alias names a key
that has a binding and `Has(A)` is false, a `Bind(A, v)`, `BindShared(A, v)` or
`Singleton(A, v)` that returns makes `Has(A)` true, and an `Alias(X, A)` that returns
makes `Has(A)` true whenever the binding table has an entry under the key of `X`
itself; each leaves the shared cache as it was. But after `Bind("W", 1)` and
`Alias("W", "X")`, a state where every alias is bound and `Has("A")` is false, the
call `Alias("X", "A")` returns normally, its guard having followed the alias "X" to
"W", and stores `"A" ↦ "X"`; the binding table has no entry under "X", so `Has("A")`
is still false. -/
theorem Has_false_after_Alias :
    (∀ (c c1 : Container) (log log1 : Log) (A v : Value), AliasesBound c →
      Has c log A = .ret false c log →
      (Bind c log A v = .ret () c1 log1 →
        Has c1 log1 A = .ret true c1 log1 ∧ c1.shared = c.shared) ∧
      (BindShared c log A v = .ret () c1 log1 →
        Has c1 log1 A = .ret true c1 log1 ∧ c1.shared = c.shared) ∧
      (Singleton c log A v = .ret () c1 log1 →
        Has c1 log1 A = .ret true c1 log1 ∧ c1.shared = c.shared)) ∧
    (∀ (c c1 : Container) (log log1 : Log) (X : Value) (name : String),
      (c.bindings (utils.GetKey X)).isSome = true →
      Alias c log X name = .ret () c1 log1 →
      Has c1 log1 (.str name) = .ret true c1 log1 ∧ c1.shared = c.shared) ∧
    (∃ c, runOps exampleHost 1
        [.Bind (.str "W") (.int 1), .Alias (.str "W") "X"] New [] = some (c, []) ∧
      AliasesBound c ∧
      Has c [] (.str "A") = .ret false c [] ∧
      ∃ c1, Alias c [] (.str "X") "A" = .ret () c1 [] ∧
        c1.aliases "A" = some "X" ∧ c1.bindings "X" = none ∧ c1.shared = c.shared ∧
        Has c1 [] (.str "A") = .ret false c1 []) :=
  ⟨fun c c1 log log1 A v hinv hhas =>
      ⟨Has_after_provide c c1 log log1 A v false hinv hhas,
        Has_after_provide c c1 log log1 A v true hinv hhas,
        Has_after_provide c c1 log log1 A v true hinv hhas⟩,
    fun c c1 log log1 X name hX hal => Has_after_Alias c c1 log log1 X name hX hal,
    ⟨_, rfl,
      AliasesBound_run exampleHost 1 _ _ [] [] (.Alias (.str "W") "X")
        (AliasesBound_provide New _ [] [] (.str "W") (.int 1) false AliasesBound_New rfl)
        (fun X name hop => by cases hop; rfl) rfl,
      rfl, _, rfl, rfl, rfl, rfl, rfl⟩⟩

/-! ## C7 and C8: the registration checks of `provide` -/

/-- C7: for every interface-shaped abstract `I` and every concrete `v`, in every
container state: if `v` does not implement `I`, `Bind(I, v)` and `BindShared(I, v)` panic
with `ErrInterfaceMismatch` and no table is written; if `v` implements `I`, both
succeed and store the binding `(v, shared flag)` under the key of `I`, the shared cache
and the alias table staying as they were. -/
theorem provide_interface (c : Container) (log : Log) (I v : Value)
    (hI : utils.IsInterface I = true) :
    (utils.IsImplements v I = false →
      Bind c log I v = .panic .ErrInterfaceMismatch c log ∧
      BindShared c log I v = .panic .ErrInterfaceMismatch c log) ∧
    (utils.IsImplements v I = true →
      Bind c log I v =
        .ret () { c with bindings := mapSet c.bindings (utils.GetKey I) ⟨v, false⟩ } log ∧
      BindShared c log I v =
        .ret () { c with bindings := mapSet c.bindings (utils.GetKey I) ⟨v, true⟩ } log) := by
  have hS : utils.IsStruct I = false := by
    cases I <;> first | rfl | simp [utils.IsInterface] at hI
  constructor
  · intro himp
    simp [Bind, BindShared, provide, hI, himp]
  · intro himp
    simp [Bind, BindShared, provide, hI, himp, hS, binding.New]

/-- C7 at a concrete input: the interface `Logger` requiring `Log`, a struct without
methods and a struct with the method `Log`. -/
theorem provide_interface_witness :
    utils.IsInterface (.iface "Logger" ["Log"]) = true ∧
    utils.IsImplements (.struct "Plain" [] []) (.iface "Logger" ["Log"]) = false ∧
    Bind New [] (.iface "Logger" ["Log"]) (.struct "Plain" [] []) =
      .panic .ErrInterfaceMismatch New [] ∧
    utils.IsImplements (.struct "File" ["Log"] []) (.iface "Logger" ["Log"]) = true ∧
    BindShared New [] (.iface "Logger" ["Log"]) (.struct "File" ["Log"] []) =
      .ret () { New with bindings := mapSet New.bindings "Logger"
                                       ⟨.struct "File" ["Log"] [], true⟩ } [] :=
  ⟨rfl, rfl,
    ((provide_interface New [] (.iface "Logger" ["Log"]) (.struct "Plain" [] []) rfl).1 rfl).1,
    rfl,
    ((provide_interface New [] (.iface "Logger" ["Log"]) (.struct "File" ["Log"] [])
      rfl).2 rfl).2⟩

/-- C8: for every struct-shaped abstract `S` (which is then not interface-shaped), in
every container state: `Bind(S, v)` and `BindShared(S, v)` with `v` not nil panic with
`ErrAbstractStructConcreteNotNil` and leave the three tables as they were; with `v`
nil they succeed and store under the key of `S` the binding whose concrete is `S`
itself, with the given shared flag, the shared cache and the alias table staying as
they were. -/
theorem provide_struct (c : Container) (log : Log) (S v : Value)
    (hS : utils.IsStruct S = true) :
    utils.IsInterface S = false ∧
    (v.isNil = false →
      Bind c log S v = .panic .ErrAbstractStructConcreteNotNil c log ∧
      BindShared c log S v = .panic .ErrAbstractStructConcreteNotNil c log) ∧
    (v.isNil = true →
      Bind c log S v =
        .ret () { c with bindings := mapSet c.bindings (utils.GetKey S) ⟨S, false⟩ } log ∧
      BindShared c log S v =
        .ret () { c with bindings := mapSet c.bindings (utils.GetKey S) ⟨S, true⟩ } log) := by
  have hI : utils.IsInterface S = false := by
    cases S <;> first | rfl | simp [utils.IsStruct] at hS
  refine ⟨hI, ?_, ?_⟩
  · intro hv
    simp [Bind, BindShared, provide, hI, hS, hv]
  · intro hv
    simp [Bind, BindShared, provide, hI, hS, hv, binding.New]

/-- C8 at a concrete input: the struct `Service` bound with the concrete 3 and with
nil. -/
theorem provide_struct_witness :
    utils.IsStruct (.struct "Service" [] [("Dep", .int 0)]) = true ∧
    Bind New [] (.struct "Service" [] [("Dep", .int 0)]) (.int 3) =
      .panic .ErrAbstractStructConcreteNotNil New [] ∧
    BindShared New [] (.struct "Service" [] [("Dep", .int 0)]) .nil =
      .ret () { New with bindings := mapSet New.bindings "Service"
                                       ⟨.struct "Service" [] [("Dep", .int 0)], true⟩ } [] :=
  ⟨rfl,
    ((provide_struct New [] (.struct "Service" [] [("Dep", .int 0)]) (.int 3) rfl).2.1 rfl).1,
    ((provide_struct New [] (.struct "Service" [] [("Dep", .int 0)]) .nil rfl).2.2 rfl).2⟩

/-! ## C9: end-to-end auto-wiring -/

/-- C9 (amended): on a container where the struct `S` is bound with a nil concrete and
the abstract `D`, not struct-shaped, is bound to a constant `d` (the keys of `S` and `D`
differ, neither is an alias name, neither has a shared-cache entry), `Make(S)` without
parameters returns the struct `S` exactly as it was bound, so each field of the result
holds what the bound descriptor held and nothing is injected; and `Invoke` on a
constructor that declares one parameter of the type of `D` and stores its argument in
the field `f` returns a value whose field `f` is `d`, after one call of the constructor
with `d`. -/
theorem autowire (h : Host) (fuel : Nat) (c c1 c2 : Container) (log : Log)
    (S D d : Value) (ctor f : String)
    (hS : utils.IsStruct S = true)
    (hDs : utils.IsStruct D = false)
    (hd : utils.IsFunc d = false)
    (hne : utils.GetKey S ≠ utils.GetKey D)
    (haS : c.aliases (utils.GetKey S) = none) (haD : c.aliases (utils.GetKey D) = none)
    (hsS : c.shared (utils.GetKey S) = none) (hsD : c.shared (utils.GetKey D) = none)
    (hctor : ∀ x, (h ctor [x]).field f = some x)
    (hb1 : Bind c log S .nil = .ret () c1 log)
    (hb2 : Bind c1 log D d = .ret () c2 log) :
    Make h (fuel + 1) c2 log S [] = .ret (S, none) c2 log ∧
    ∃ v, Invoke h (fuel + 1) c2 log (.func ctor [utils.GetKey D]) =
        .ret v c2 (log ++ [(.func ctor [utils.GetKey D], [d])]) ∧
      v.field f = some d := by
  have hSf : utils.IsFunc S = false := by
    cases S <;> first | rfl | simp [utils.IsStruct] at hS
  obtain ⟨_, hc1⟩ := provide_ret_inv c c1 log log S .nil false hb1
  obtain ⟨_, hc2⟩ := provide_ret_inv c1 c2 log log D d false hb2
  simp only [hS, hDs, if_true] at hc1 hc2
  have hgS : getBinding c2 S = .ok ⟨S, false⟩ := by
    apply getBinding_direct
    · rw [hc2, hc1]; exact haS
    · rw [hc2, hc1]; simp [mapSet, hne, binding.New]
  have hgD : getBinding c2 (.typ (utils.GetKey D)) = .ok ⟨d, false⟩ := by
    apply getBinding_direct
    · rw [hc2, hc1]; exact haD
    · rw [hc2, hc1]; simp [mapSet, utils.GetKey, binding.New]
  have hs2 : c2.shared = c.shared := by rw [hc2, hc1]
  constructor
  · rw [Make_constant h fuel c2 log S [] ⟨S, false⟩ hSf (by rw [hs2]; exact hsS) hgS hSf]
    simp
  · refine ⟨h ctor [d], ?_, hctor d⟩
    rw [Invoke_func]
    have hm : Make h (fuel + 1) c2 log (.typ (utils.GetKey D)) [] = .ret (d, none) c2 log := by
      rw [Make_constant h fuel c2 log (.typ (utils.GetKey D)) [] ⟨d, false⟩ rfl
        (by rw [hs2]; exact hsD) hgD hd]
      simp
    simp [extractParameters.loop, hm]

/-- C9 (amended) at a concrete input: `Service` with a nil `Dep` field bound with nil,
the interface `Dep` bound to 7, and the constructor `NewService`. -/
theorem autowire_witness :
    ∃ c1 c2, Bind New [] (.struct "Service" [] [("Dep", .nil)]) .nil = .ret () c1 [] ∧
      Bind c1 [] (.iface "Dep" []) (.int 7) = .ret () c2 [] ∧
      Make exampleHost 1 c2 [] (.struct "Service" [] [("Dep", .nil)]) [] =
        .ret (.struct "Service" [] [("Dep", .nil)], none) c2 [] ∧
      ∃ v, Invoke exampleHost 1 c2 [] (.func "NewService" ["Dep"]) =
          .ret v c2 ([] ++ [(.func "NewService" ["Dep"], [.int 7])]) ∧
        v.field "Dep" = some (.int 7) :=
  ⟨_, _, rfl, rfl,
    autowire exampleHost 0 New _ _ [] (.struct "Service" [] [("Dep", .nil)]) (.iface "Dep" [])
      (.int 7) "NewService" "Dep" rfl rfl rfl (by decide) rfl rfl rfl rfl
      (fun _ => rfl) rfl rfl⟩

/-- C9 as stated fails in its first half: with `Service` (field `Dep` nil) bound with a
nil concrete and `Dep` bound to 7, `Make(Service)` without parameters returns the bound
`Service` itself, whose `Dep` field is still nil and not 7. -/
theorem autowire_counterexample :
    ∃ c log, runOps exampleHost 1
        [.Bind (.struct "Service" [] [("Dep", .nil)]) .nil, .Bind (.iface "Dep" []) (.int 7)]
        New [] = some (c, log) ∧
      ∃ v, Make exampleHost 1 c log (.struct "Service" [] [("Dep", .nil)]) [] =
          .ret (v, none) c log ∧
        v.field "Dep" = some .nil ∧ v.field "Dep" ≠ some (.int 7) := by
  refine ⟨_, _, rfl, _, rfl, rfl, ?_⟩
  intro hne
  have h2 : (some Value.nil : Option Value) = some (Value.int 7) := hne
  simp at h2

/-! ## C10: `Invoke` and the shared cache -/

/-- With factories that are functions of their arguments: what an `Invoke` of a
function value that ends changes in the shared cache, and what an `Invoke` that returns
has called. -/
theorem Invoke_pure (h : Host) (fuel : Nat) (c : Container) (log : Log)
    (name : String) (params : List String) (c1 : Container) (log1 : Log)
    (hfin : (Invoke h fuel c log (.func name params)).final = some (c1, log1)) :
    (∀ k, c1.shared k ≠ c.shared k →
      ∃ A b, utils.GetKey A = k ∧ utils.IsFunc A = false ∧ getBinding c A = .ok b ∧
        b.Shared = true) ∧
    ((∀ k b, c.bindings k = some b → b.Shared = false) → c1.shared = c.shared) ∧
    (params = [] → c1.shared = c.shared) ∧
    (∀ v, Invoke h fuel c log (.func name params) = .ret v c1 log1 →
      ∃ args log0,
        ResolvedInOrder (fun c2 log2 a => Make h fuel c2 log2 a []) (params.map Value.typ)
          c log args c1 log0 ∧
        log1 = log0 ++ [(.func name params, args)] ∧ v = h name args ∧
        callsOf (.func name params) log0 = callsOf (.func name params) log ∧
        callsOf (.func name params) log1 = callsOf (.func name params) log + 1) := by
  have hframe := Invoke_frame h fuel c log (.func name params) c1 log1 hfin
  obtain ⟨_, _, hsh, _⟩ := hframe
  refine ⟨hsh, ?_, ?_, ?_⟩
  · intro hnone
    funext k
    by_contra hk
    obtain ⟨A, b, _, _, hg, hb⟩ := hsh k hk
    rw [getBinding_ok_iff] at hg
    rw [hnone _ b hg] at hb
    exact Bool.false_ne_true hb
  · intro hp
    subst hp
    rw [Invoke_func] at hfin
    simp only [List.map_nil, extractParameters.loop, Outcome.final, Option.some.injEq,
      Prod.mk.injEq] at hfin
    rw [← hfin.1]
  · intro v hv
    rw [Invoke_func] at hv
    cases hl : extractParameters.loop (fun c1 log1 a => Make h fuel c1 log1 a [])
        (params.map Value.typ) c log [] with
    | ret args c2 log2 =>
      rw [hl] at hv
      simp only [Outcome.ret.injEq] at hv
      obtain ⟨hv1, hv2, hv3⟩ := hv
      obtain ⟨hcalls, _, _, _, _, l, hl2⟩ := loop_params_no_call h fuel name params
        (fun _ => False) c log args c2 log2 (fun _ hk => absurd hk id)
        (fun _ _ _ hk => absurd hk id) hl
      obtain ⟨vs, hvs, hres⟩ := resolved_of_loop _ _ c log [] args c2 log2 hl
      simp only [List.nil_append] at hvs
      subst hvs
      subst hv2
      refine ⟨args, log2, hres, hv3.symm, hv1.symm, hcalls, ?_⟩
      rw [← hv3, callsOf_append_one, hcalls, (sameFunc_func _ _ _ _).mpr ⟨rfl, rfl⟩]
      rfl
    | panic e c2 log2 =>
      rw [hl] at hv
      simp at hv
    | diverge =>
      rw [hl] at hv
      simp at hv

/-- C10 (amended): let the factories be functions of their arguments (they return
without calling the container). For every container state and every function value
`f`, an `Invoke(f)` that ends changes the shared cache only through the nested `Make`
calls that resolve the declared parameters of `f`: an entry that differs afterwards
lies under the key of an abstract that is not callable and whose lookup gives a shared
binding. So the cache after `Invoke(f)` is the cache before it whenever no binding is
shared, and whenever `f` declares no parameter. And whatever the cache holds, an
`Invoke(f)` that returns has called `f` afresh, exactly once: its arguments are the
values of `Make(T1)`, ..., `Make(Tn)` for the declared parameter types, made in this
order each from the state the one before left, none of which calls `f`; the call of
`f` on them is the last entry of the call log, and its result is the value returned. -/
theorem Invoke_shared_cache (p : Host) (fuel : Nat) (c : Container) (log : Log)
    (name : String) (params : List String) (c1 : Container) (log1 : Log)
    (hfin : (Reentrant.Invoke (Reentrant.ofPure p) (fuel + 1) c log
      (.func name params)).final = some (c1, log1)) :
    (∀ k, c1.shared k ≠ c.shared k →
      ∃ A b, utils.GetKey A = k ∧ utils.IsFunc A = false ∧ getBinding c A = .ok b ∧
        b.Shared = true) ∧
    ((∀ k b, c.bindings k = some b → b.Shared = false) → c1.shared = c.shared) ∧
    (params = [] → c1.shared = c.shared) ∧
    (∀ v, Reentrant.Invoke (Reentrant.ofPure p) (fuel + 1) c log (.func name params) =
        .ret v c1 log1 →
      ∃ args log0,
        ResolvedInOrder (fun c2 log2 a => Reentrant.Make (Reentrant.ofPure p) fuel c2 log2 a [])
          (params.map Value.typ) c log args c1 log0 ∧
        log1 = log0 ++ [(.func name params, args)] ∧ v = p name args ∧
        callsOf (.func name params) log0 = callsOf (.func name params) log ∧
        callsOf (.func name params) log1 = callsOf (.func name params) log + 1) := by
  have hfun : (fun c2 log2 a => Reentrant.Make (Reentrant.ofPure p) fuel c2 log2 a []) =
      (fun c2 log2 a => Make p fuel c2 log2 a []) := by
    funext c2 log2 a
    exact Make_ofPure p fuel c2 log2 a []
  rw [Invoke_ofPure] at hfin
  rw [Invoke_ofPure, hfun]
  exact Invoke_pure p fuel c log name params c1 log1 hfin

/-- C10 (amended) at a concrete input: `"Dep"` bound shared to 7 and the constructor
`NewService` with one `Dep` parameter; the only cache entry that differs afterwards is
the one under "Dep", and `NewService` is called once, on the 7 that `Make(Dep)` gave. -/
theorem Invoke_shared_cache_witness :
    BindShared New [] (.str "Dep") (.int 7) = .ret () depShared [] ∧
    Reentrant.Invoke (Reentrant.ofPure exampleHost) 2 depShared []
        (.func "NewService" ["Dep"]) =
      .ret (.struct "Service" [] [("Dep", .int 7)]) depSharedCached
        [(.func "NewService" ["Dep"], [.int 7])] ∧
    (∀ k, depSharedCached.shared k ≠ depShared.shared k →
      ∃ A b, utils.GetKey A = k ∧ utils.IsFunc A = false ∧
        getBinding depShared A = .ok b ∧ b.Shared = true) ∧
    (∃ args log0,
      ResolvedInOrder
        (fun c2 log2 a => Reentrant.Make (Reentrant.ofPure exampleHost) 1 c2 log2 a [])
        ([Value.typ "Dep"]) depShared [] args depSharedCached log0 ∧
      [(Value.func "NewService" ["Dep"], [Value.int 7])] =
        log0 ++ [(.func "NewService" ["Dep"], args)] ∧
      Value.struct "Service" [] [("Dep", .int 7)] = exampleHost "NewService" args ∧
      callsOf (.func "NewService" ["Dep"]) log0 = callsOf (.func "NewService" ["Dep"]) [] ∧
      callsOf (.func "NewService" ["Dep"]) [(.func "NewService" ["Dep"], [.int 7])] =
        callsOf (.func "NewService" ["Dep"]) [] + 1) :=
  ⟨rfl, rfl,
    (Invoke_shared_cache exampleHost 1 depShared [] "NewService" ["Dep"] depSharedCached
      [(.func "NewService" ["Dep"], [.int 7])] rfl).1,
    (Invoke_shared_cache exampleHost 1 depShared [] "NewService" ["Dep"] depSharedCached
      [(.func "NewService" ["Dep"], [.int 7])] rfl).2.2.2 _ rfl⟩

/-- C10 as stated fails; each case is reached by calls that all return normally.
First: after `BindShared("Dep", 7)`, the call `Invoke(NewService)` resolves its `Dep`
parameter through `Make` and leaves a new shared-cache entry under "Dep". Second: after
`BindShared("Dep", 9)`, `Make("Dep")` and `Bind("Dep", 7)`, `Invoke(NewService)` builds
its result from the cached 9, so it does read the shared cache. Third: after
`Singleton("config", 7)`, the function `G`, which declares no parameter and returns
`Get("config")`, is invoked: its body makes the container cache 7 under "config", so
the cache after `Invoke(G)` differs from the cache before although `G` has no
parameter to resolve. -/
theorem Invoke_shared_cache_counterexample :
    (∃ c log, Reentrant.runOps (Reentrant.ofPure exampleHost) 1
        [.BindShared (.str "Dep") (.int 7)] New [] = some (c, log) ∧
      ∃ v c1 log1, Reentrant.Invoke (Reentrant.ofPure exampleHost) 2 c log
          (.func "NewService" ["Dep"]) = .ret v c1 log1 ∧
        c.shared "Dep" = none ∧ c1.shared "Dep" = some (.int 7)) ∧
    (∃ c log, Reentrant.runOps (Reentrant.ofPure exampleHost) 1
        [.BindShared (.str "Dep") (.int 9), .Make (.str "Dep") [],
         .Bind (.str "Dep") (.int 7)] New [] = some (c, log) ∧
      c.bindings "Dep" = some ⟨.int 7, false⟩ ∧
      ∃ v c1 log1, Reentrant.Invoke (Reentrant.ofPure exampleHost) 2 c log
          (.func "NewService" ["Dep"]) = .ret v c1 log1 ∧
        v.field "Dep" = some (.int 9)) ∧
    (Singleton New [] (.str "config") (.int 7) = .ret () configShared [] ∧
      Reentrant.Invoke Reentrant.callingHost 2 configShared [] (.func "G" []) =
        .ret (.int 7) configCached [(.func "G" [], [])] ∧
      configShared.shared "config" = none ∧
      configCached.shared "config" = some (.int 7)) :=
  ⟨⟨_, _, rfl, _, _, _, rfl, rfl, rfl⟩, ⟨_, _, rfl, rfl, _, _, _, rfl, rfl⟩,
    ⟨rfl, rfl, rfl, rfl⟩⟩

/-! ## C11: `Get` -/

/-- C11: for every container state and every abstract `A`, `Get(A)` ends as
`Make(A)` does: when `Make(A)` returns `(v, nil)`, `Get(A)` returns `v` and leaves the
same container and call log; when `Make(A)` returns an error `e`, `Get(A)` panics with
that same `e`; a panic inside `Make(A)` is the panic of `Get(A)`. -/
theorem Get_of_Make (h : Host) (fuel : Nat) (c : Container) (log : Log) (A : Value) :
    (∀ v c1 log1, Make h fuel c log A [] = .ret (v, none) c1 log1 →
      Get h fuel c log A = .ret v c1 log1) ∧
    (∀ v e c1 log1, Make h fuel c log A [] = .ret (v, some e) c1 log1 →
      Get h fuel c log A = .panic e c1 log1) ∧
    (∀ e c1 log1, Make h fuel c log A [] = .panic e c1 log1 →
      Get h fuel c log A = .panic e c1 log1) := by
  refine ⟨?_, ?_, ?_⟩
  · intro v c1 log1 hm
    simp [Get, hm]
  · intro v e c1 log1 hm
    simp [Get, hm]
  · intro e c1 log1 hm
    simp [Get, hm]

/-- C11 at a concrete input: with "Dep" bound to 7, `Get("Dep")` returns 7 and
`Get("db")` panics with the error `Make("db")` returns. -/
theorem Get_of_Make_witness :
    Make exampleHost 1 depBound [] (.str "Dep") [] = .ret (.int 7, none) depBound [] ∧
    Get exampleHost 1 depBound [] (.str "Dep") = .ret (.int 7) depBound [] ∧
    Make exampleHost 1 depBound [] (.str "db") [] =
      .ret (.nil, some (.BindingMissingError (.str "db"))) depBound [] ∧
    Get exampleHost 1 depBound [] (.str "db") =
      .panic (.BindingMissingError (.str "db")) depBound [] :=
  ⟨rfl, (Get_of_Make exampleHost 1 depBound [] (.str "Dep")).1 _ _ _ rfl, rfl,
    (Get_of_Make exampleHost 1 depBound [] (.str "db")).2.1 _ _ _ _ rfl⟩

/-! ## C12: `Invoke` of a value that is not callable, `Make` of one that is -/

/-- C12: for every container state, `Invoke` of an abstract that is not callable
panics with `ErrAbstractNotInvocable`, with the container and the call log as they
were; and for a callable `f`, `Make(f, params...)` is `Invoke(f)`: it returns
`(v, nil)` when `Invoke(f)` returns `v`, and panics as `Invoke(f)` does, whatever the
binding table, the alias table and the shared cache hold; for an `f` that declares no
parameter it returns the result of the call `f()` in every container state. -/
theorem Invoke_or_Make_callable (h : Host) (fuel : Nat) (c : Container) (log : Log) :
    (∀ A, utils.IsFunc A = false →
      Invoke h fuel c log A = .panic .ErrAbstractNotInvocable c log) ∧
    (∀ f ps, utils.IsFunc f = true →
      (∀ v c1 log1, Invoke h fuel c log f = .ret v c1 log1 →
        Make h (fuel + 1) c log f ps = .ret (v, none) c1 log1) ∧
      (∀ e c1 log1, Invoke h fuel c log f = .panic e c1 log1 →
        Make h (fuel + 1) c log f ps = .panic e c1 log1)) ∧
    (∀ name ps, Make h (fuel + 1) c log (.func name []) ps =
      .ret (h name [], none) c (log ++ [(.func name [], [])])) := by
  refine ⟨?_, ?_, ?_⟩
  · intro A hA
    simp [Invoke, InvokeWith, binding.New, Binding.ConcreteIsFunc, hA]
  · intro f ps hf
    rw [Make_callable h fuel c log f ps hf]
    constructor
    · intro v c1 log1 hi
      rw [hi]
    · intro e c1 log1 hi
      rw [hi]
  · intro name ps
    rw [Make_callable h fuel c log (.func name []) ps rfl, Invoke_func]
    rfl

/-- C12 at a concrete input: on the container with "Dep" bound to 7, `Invoke("Dep")`
panics and `Make(NewService)` returns what `Invoke(NewService)` returns. -/
theorem Invoke_or_Make_callable_witness :
    Invoke exampleHost 1 depBound [] (.str "Dep") =
      .panic .ErrAbstractNotInvocable depBound [] ∧
    Invoke exampleHost 1 depBound [] (.func "NewService" ["Dep"]) =
      .ret (.struct "Service" [] [("Dep", .int 7)]) depBound
        [(.func "NewService" ["Dep"], [.int 7])] ∧
    Make exampleHost 2 depBound [] (.func "NewService" ["Dep"]) [.int 1] =
      .ret (.struct "Service" [] [("Dep", .int 7)], none) depBound
        [(.func "NewService" ["Dep"], [.int 7])] :=
  ⟨(Invoke_or_Make_callable exampleHost 1 depBound []).1 (.str "Dep") rfl, rfl,
    ((Invoke_or_Make_callable exampleHost 1 depBound []).2.1 (.func "NewService" ["Dep"])
      [.int 1] rfl).1 _ _ _ rfl⟩

/-! ## C13: auto-injection resolves the parameters in order and fails fast -/

/-- C14: for every container state in which the shared cache holds an instance `v`
under the key of an abstract `A` that is not callable, `Make(A, params...)` returns
`(v, nil)` for every parameter list and every positive fuel, calls no factory and
leaves the three tables as they were, whatever the binding table and the alias table
hold for `A`. -/
theorem Make_cache_hit (h : Host) (fuel : Nat) (c : Container) (log : Log) (A v : Value)
    (ps : List Value) (hA : utils.IsFunc A = false)
    (hv : c.shared (utils.GetKey A) = some v) :
    Make h (fuel + 1) c log A ps = .ret (v, none) c log :=
  Make_cached h fuel c log A ps v hA hv

/-- C14 at a concrete input: the cache holds 5 under "A" and the binding table holds
nothing at all. -/
theorem Make_cache_hit_witness :
    Make exampleHost 1 { New with shared := mapSet New.shared "A" (.int 5) } []
        (.str "A") [.int 1, .int 2] =
      .ret (.int 5, none) { New with shared := mapSet New.shared "A" (.int 5) } [] :=
  Make_cache_hit exampleHost 0 { New with shared := mapSet New.shared "A" (.int 5) } []
    (.str "A") (.int 5) [.int 1, .int 2] rfl rfl

/-! ## C15: the shared cache is write-once per key -/

/-- C16 fails on the code: `Bind("W", 1)`, `Alias("W", "Z")` and `Alias("Z", "X")` all
return normally from a fresh container, because the guard of `Alias` looks "Z" up
through the alias table; but the entry written is `"X" ↦ "Z"`, the key of the alias
itself, and the binding table has no entry under "Z". In that reachable state the
alias "X" points to nothing: `Has("X")` is false and `Make("X")` reports
`BindingMissingError`. -/
theorem alias_of_alias_dangles :
    (∃ c1 c2, Bind New [] (.str "W") (.int 1) = .ret () c1 [] ∧
      Alias c1 [] (.str "W") "Z" = .ret () c2 [] ∧
      Alias c2 [] (.str "Z") "X" = .ret () aliasOfAlias []) ∧
    runOps exampleHost 1
        [.Bind (.str "W") (.int 1), .Alias (.str "W") "Z", .Alias (.str "Z") "X"] New [] =
      some (aliasOfAlias, []) ∧
    aliasOfAlias.aliases "X" = some "Z" ∧
    aliasOfAlias.bindings "Z" = none ∧
    Has aliasOfAlias [] (.str "X") = .ret false aliasOfAlias [] ∧
    Make exampleHost 1 aliasOfAlias [] (.str "X") [] =
      .ret (.nil, some (.BindingMissingError (.str "X"))) aliasOfAlias [] :=
  ⟨⟨_, _, rfl, rfl, rfl⟩, rfl, rfl, rfl, rfl, rfl⟩

/-! ## C17: what a registration writes -/

/-- C17: for every container state, a successful `Bind(A, v)` (resp. `BindShared`)
leaves under the key of `A` exactly the binding with concrete `v` (or `A` itself when
`A` is struct-shaped) and shared flag false (resp. true), leaves every other
binding-table entry, the shared cache, the alias table and the call log as they were;
and a successful `Alias(X, name)` maps `name` to the key of `X` and leaves every other
alias-table entry, the binding table, the shared cache and the call log as they were. -/
theorem registration_frame (c c1 : Container) (log log1 : Log) (A v : Value)
    (name : String) :
    (Bind c log A v = .ret () c1 log1 →
      c1.bindings (utils.GetKey A) = some ⟨if utils.IsStruct A then A else v, false⟩ ∧
      (∀ k, k ≠ utils.GetKey A → c1.bindings k = c.bindings k) ∧
      c1.shared = c.shared ∧ c1.aliases = c.aliases ∧ log1 = log) ∧
    (BindShared c log A v = .ret () c1 log1 →
      c1.bindings (utils.GetKey A) = some ⟨if utils.IsStruct A then A else v, true⟩ ∧
      (∀ k, k ≠ utils.GetKey A → c1.bindings k = c.bindings k) ∧
      c1.shared = c.shared ∧ c1.aliases = c.aliases ∧ log1 = log) ∧
    (Alias c log A name = .ret () c1 log1 →
      c1.aliases name = some (utils.GetKey A) ∧
      (∀ k, k ≠ name → c1.aliases k = c.aliases k) ∧
      c1.bindings = c.bindings ∧ c1.shared = c.shared ∧ log1 = log) := by
  have hprov : ∀ sh, provide c log A v sh = .ret () c1 log1 →
      c1.bindings (utils.GetKey A) = some ⟨if utils.IsStruct A then A else v, sh⟩ ∧
      (∀ k, k ≠ utils.GetKey A → c1.bindings k = c.bindings k) ∧
      c1.shared = c.shared ∧ c1.aliases = c.aliases ∧ log1 = log := by
    intro sh hp
    obtain ⟨hl, hc1⟩ := provide_ret_inv c c1 log log1 A v sh hp
    subst hc1
    refine ⟨by simp [mapSet, binding.New], ?_, rfl, rfl, hl⟩
    intro k hk
    simp [mapSet, hk]
  refine ⟨hprov false, hprov true, ?_⟩
  intro hal
  unfold Alias at hal
  cases hg : getBinding c A with
  | error e => simp [hg] at hal
  | ok b =>
    simp only [hg, Outcome.ret.injEq, true_and] at hal
    obtain ⟨rfl, rfl⟩ := hal
    refine ⟨by simp [mapSet, utils.GetKey], ?_, rfl, rfl, rfl⟩
    intro k hk
    simp [mapSet, utils.GetKey, hk]

/-- C17 at a concrete input: on the container with "Dep" bound to 7, re-binding "Dep"
shared to 8 and aliasing "Dep" as "D". -/
theorem registration_frame_witness :
    (∃ c1, BindShared depBound [] (.str "Dep") (.int 8) = .ret () c1 [] ∧
      c1.bindings "Dep" = some ⟨.int 8, true⟩ ∧
      (∀ k, k ≠ "Dep" → c1.bindings k = depBound.bindings k) ∧
      c1.shared = depBound.shared ∧ c1.aliases = depBound.aliases) ∧
    (∃ c1, Alias depBound [] (.str "Dep") "D" = .ret () c1 [] ∧
      c1.aliases "D" = some "Dep" ∧
      (∀ k, k ≠ "D" → c1.aliases k = depBound.aliases k) ∧
      c1.bindings = depBound.bindings ∧ c1.shared = depBound.shared) :=
  ⟨⟨{ depBound with bindings := mapSet depBound.bindings "Dep" ⟨.int 8, true⟩ }, rfl,
      ((registration_frame depBound
        { depBound with bindings := mapSet depBound.bindings "Dep" ⟨.int 8, true⟩ } [] []
        (.str "Dep") (.int 8) "D").2.1 rfl).1,
      ((registration_frame depBound
        { depBound with bindings := mapSet depBound.bindings "Dep" ⟨.int 8, true⟩ } [] []
        (.str "Dep") (.int 8) "D").2.1 rfl).2.1, rfl, rfl⟩,
    ⟨{ depBound with aliases := mapSet depBound.aliases "D" "Dep" }, rfl,
      ((registration_frame depBound
        { depBound with aliases := mapSet depBound.aliases "D" "Dep" } [] []
        (.str "Dep") (.int 8) "D").2.2 rfl).1,
      ((registration_frame depBound
        { depBound with aliases := mapSet depBound.aliases "D" "Dep" } [] []
        (.str "Dep") (.int 8) "D").2.2 rfl).2.1, rfl, rfl⟩⟩

/-! ## C18: termination without dependency cycles -/

/-- A `Make` with explicit parameters on an abstract that is not callable ends with
one unit of fuel. -/
theorem Make_explicit_terminates (h : Host) (c : Container) (log : Log) (A : Value)
    (ps : List Value) (hA : utils.IsFunc A = false) (hps : ps ≠ []) :
    Make h 1 c log A ps ≠ .diverge := by
  have hne : ps.isEmpty = false := by
    cases ps with
    | nil => exact absurd rfl hps
    | cons p ps => rfl
  cases hs : c.shared (utils.GetKey A) with
  | some v => rw [Make_cached h 0 c log A ps v hA hs]; simp
  | none =>
    cases hg : getBinding c A with
    | error e => rw [Make_error h 0 c log A ps e hA hs hg]; simp
    | ok b =>
      cases hsh : b.Shared <;> simp [Make, hA, hs, hg, hne, hsh]

/-- With factories that are functions of their arguments, in a container state whose
dependency relation is well-founded, `Make`, `Get` and `Invoke` end for every input:
there is a fuel from which on they never run out of fuel; and `Has` always returns. -/
theorem terminates_pure (h : Host) (c : Container)
    (hwf : WellFounded (fun p k => DependsOn c k p)) (log : Log) (A : Value)
    (ps : List Value) :
    (∃ fuel, ∀ extra, Make h (fuel + extra) c log A ps ≠ .diverge) ∧
    (∃ fuel, ∀ extra, Get h (fuel + extra) c log A ≠ .diverge) ∧
    (∃ fuel, ∀ extra, Invoke h (fuel + extra) c log A ≠ .diverge) ∧
    (∃ b, Has c log A = .ret b c log) := by
  have hmore : ∀ N qs, Make h N c log A qs ≠ .diverge →
      ∀ extra, Make h (N + extra) c log A qs ≠ .diverge := by
    intro N qs hnd extra
    rw [Make_more_fuel h N extra c log A qs hnd]
    exact hnd
  have hmake : ∀ qs, ∃ fuel, Make h fuel c log A qs ≠ .diverge := by
    intro qs
    cases hA : utils.IsFunc A with
    | true =>
      cases A with
      | func name params =>
        obtain ⟨N, hN⟩ := fuel_for_all h c params (by
          intro p _
          obtain ⟨N, hN⟩ := key_terminates h c hwf p
          exact ⟨N, fun c1 log1 hb ha => hN c1 log1 (.typ p) hb ha rfl rfl⟩)
        refine ⟨N + 1, ?_⟩
        rw [Make_callable h N c log (.func name params) qs rfl]
        have hi := Invoke_terminates h c name params N hN c log rfl rfl
        cases hinv : Invoke h N c log (.func name params) with
        | ret v c2 log2 => simp
        | panic e c2 log2 => simp
        | diverge => exact absurd hinv hi
      | _ => simp [utils.IsFunc] at hA
    | false =>
      by_cases hqs : qs = []
      · subst hqs
        obtain ⟨N, hN⟩ := key_terminates h c hwf (utils.GetKey A)
        exact ⟨N, hN c log A rfl rfl rfl hA⟩
      · exact ⟨1, Make_explicit_terminates h c log A qs hA hqs⟩
  refine ⟨?_, ?_, ?_, ?_⟩
  · obtain ⟨N, hN⟩ := hmake ps
    exact ⟨N, hmore N ps hN⟩
  · obtain ⟨N, hN⟩ := hmake []
    refine ⟨N, ?_⟩
    intro extra hget
    have hm := hmore N [] hN extra
    unfold Get at hget
    cases hmk : Make h (N + extra) c log A [] with
    | ret r c1 log1 =>
      obtain ⟨v, e⟩ := r
      rw [hmk] at hget
      cases e <;> simp at hget
    | panic e c1 log1 => rw [hmk] at hget; simp at hget
    | diverge => exact hm hmk
  · cases hA : utils.IsFunc A with
    | true =>
      cases A with
      | func name params =>
        obtain ⟨N, hN⟩ := fuel_for_all h c params (by
          intro p _
          obtain ⟨N, hN⟩ := key_terminates h c hwf p
          exact ⟨N, fun c1 log1 hb ha => hN c1 log1 (.typ p) hb ha rfl rfl⟩)
        have hi := Invoke_terminates h c name params N hN c log rfl rfl
        refine ⟨N, fun extra => ?_⟩
        rw [Invoke_more_fuel h N extra c log (.func name params) hi]
        exact hi
      | _ => simp [utils.IsFunc] at hA
    | false =>
      refine ⟨0, fun extra => ?_⟩
      simp [Invoke, InvokeWith, binding.New, Binding.ConcreteIsFunc, hA]
  · unfold Has
    cases getBinding c A with
    | error e => exact ⟨false, rfl⟩
    | ok b => exact ⟨true, rfl⟩

/-- The dependency relation of `svcShared` is well-founded: "svc" depends on "Dep" and
nothing else depends on anything. -/
theorem svcShared_wellFounded : WellFounded (fun p k => DependsOn svcShared k p) := by
  have hdep : ∀ k p, DependsOn svcShared k p → k = "svc" ∧ p = "Dep" := by
    rintro k p ⟨name, params, sh, hg, hp⟩
    rw [getBinding_ok_iff] at hg
    simp only [svcShared, depBound, New, mapSet, utils.GetKey] at hg
    by_cases hk : k = "svc"
    · subst hk
      simp at hg
      obtain ⟨⟨_, rfl⟩, _⟩ := hg
      simp at hp
      exact ⟨rfl, hp⟩
    · by_cases hk2 : k = "Dep"
      · subst hk2
        simp at hg
      · simp [hk, hk2] at hg
  have hDep : Acc (fun p k => DependsOn svcShared k p) "Dep" :=
    Acc.intro _ (fun q hq => absurd (hdep "Dep" q hq).1 (by decide))
  constructor
  intro k
  refine Acc.intro _ (fun p hp => ?_)
  rw [(hdep k p hp).2]
  exact hDep

/-- A container state in which no bound function declares a parameter has an empty,
hence well-founded, dependency relation. -/
theorem wellFounded_of_no_params (c : Container)
    (hnp : ∀ k name params sh, c.bindings k = some ⟨.func name params, sh⟩ → params = []) :
    WellFounded (fun p k => DependsOn c k p) := by
  constructor
  intro k
  refine Acc.intro _ (fun q hq => ?_)
  obtain ⟨name, params, sh, hg, hq2⟩ := hq
  rw [getBinding_ok_iff] at hg
  rw [hnp _ name params sh hg] at hq2
  exact absurd hq2 (List.not_mem_nil q)

/-- The dependency relation of `pingPong` is well-founded: neither function declares a
parameter. -/
theorem pingPong_wellFounded : WellFounded (fun p k => DependsOn pingPong k p) := by
  apply wellFounded_of_no_params
  intro k name params sh hb
  simp only [pingPong, New, mapSet] at hb
  by_cases hk : k = "b"
  · subst hk
    simp at hb
    exact hb.1.2
  · by_cases hk2 : k = "a"
    · subst hk2
      simp at hb
      exact hb.1.2
    · simp [hk, hk2] at hb

/-- The dependency relation of `foreverBound` is well-founded. -/
theorem foreverBound_wellFounded : WellFounded (fun p k => DependsOn foreverBound k p) := by
  apply wellFounded_of_no_params
  intro k name params sh hb
  simp only [foreverBound, New, mapSet] at hb
  by_cases hk : k = "s"
  · subst hk
    simp at hb
    exact hb.1.2
  · simp [hk] at hb

/-- On `pingPong`, `Make("a")` does not end if the `Make("b")` that the body of `a`
calls does not. -/
theorem pingPong_step_a (api : Reentrant.Api) (log : Log)
    (hd : api.make pingPong (log ++ [(.func "a" [], [])]) (.str "b") [] = .diverge) :
    Reentrant.MakeWith Reentrant.callingHost api pingPong log (.str "a") [] = .diverge := by
  have e : Reentrant.MakeWith Reentrant.callingHost api pingPong log (.str "a") [] =
      (match Reentrant.runProg api (.get (.str "b") (fun v => .done v)) pingPong
          (log ++ [(Value.func "a" [], [])]) with
        | .ret concrete c1 log1 => .ret (concrete, none) c1 log1
        | .panic e c1 log1 => .panic e c1 log1
        | .diverge => .diverge) := rfl
  rw [e]
  simp only [Reentrant.runProg, hd]

/-- On `pingPong`, `Make("b")` does not end if the `Make("a")` that the body of `b`
calls does not. -/
theorem pingPong_step_b (api : Reentrant.Api) (log : Log)
    (hd : api.make pingPong (log ++ [(.func "b" [], [])]) (.str "a") [] = .diverge) :
    Reentrant.MakeWith Reentrant.callingHost api pingPong log (.str "b") [] = .diverge := by
  have e : Reentrant.MakeWith Reentrant.callingHost api pingPong log (.str "b") [] =
      (match Reentrant.runProg api (.get (.str "a") (fun v => .done v)) pingPong
          (log ++ [(Value.func "b" [], [])]) with
        | .ret concrete c1 log1 => .ret (concrete, none) c1 log1
        | .panic e c1 log1 => .panic e c1 log1
        | .diverge => .diverge) := rfl
  rw [e]
  simp only [Reentrant.runProg, hd]

/-- On `pingPong`, neither `Make("a")` nor `Make("b")` ends, however much fuel there
is. -/
theorem pingPong_never_ends :
    ∀ (fuel : Nat) (log : Log),
      Reentrant.Make Reentrant.callingHost fuel pingPong log (.str "a") [] = .diverge ∧
      Reentrant.Make Reentrant.callingHost fuel pingPong log (.str "b") [] = .diverge := by
  intro fuel
  induction fuel with
  | zero => intro log; exact ⟨rfl, rfl⟩
  | succ n ih =>
    intro log
    exact ⟨pingPong_step_a _ log (ih _).2, pingPong_step_b _ log (ih _).1⟩

/-- On `foreverBound`, `Make("s")` does not end, however much fuel there is. -/
theorem foreverBound_never_ends (fuel : Nat) (log : Log) :
    Reentrant.Make Reentrant.callingHost fuel foreverBound log (.str "s") [] = .diverge := by
  cases fuel with
  | zero => rfl
  | succ n => rfl

/-- C18 (amended): let the factories be functions of their arguments: each returns,
and does so without calling the container. For every container state whose dependency
relation (the key `k` depends on the key of each parameter type declared by the
factory that the lookup of `k` gives) is well-founded, `Make(A, params...)`, `Get(A)`
and `Invoke(A)` end for every input, returning or panicking: there is a fuel from which
on they never run out of fuel; and `Has(A)` always returns. So with such factories a
call that never ends needs a state whose dependency relation is not well-founded. -/
theorem terminates_without_cycle (p : Host) (c : Container)
    (hwf : WellFounded (fun q k => DependsOn c k q)) (log : Log) (A : Value)
    (ps : List Value) :
    (∃ fuel, ∀ extra,
      Reentrant.Make (Reentrant.ofPure p) (fuel + extra) c log A ps ≠ .diverge) ∧
    (∃ fuel, ∀ extra,
      Reentrant.Get (Reentrant.ofPure p) (fuel + extra) c log A ≠ .diverge) ∧
    (∃ fuel, ∀ extra,
      Reentrant.Invoke (Reentrant.ofPure p) (fuel + extra) c log A ≠ .diverge) ∧
    (∃ b, Has c log A = .ret b c log) := by
  obtain ⟨⟨N1, h1⟩, ⟨N2, h2⟩, ⟨N3, h3⟩, h4⟩ := terminates_pure p c hwf log A ps
  refine ⟨⟨N1, fun extra => ?_⟩, ⟨N2, fun extra => ?_⟩, ⟨N3 + 1, fun extra => ?_⟩, h4⟩
  · rw [Make_ofPure]
    exact h1 extra
  · rw [Get_ofPure]
    exact h2 extra
  · have hfuel : N3 + 1 + extra = (N3 + extra) + 1 := by omega
    rw [hfuel, Invoke_ofPure]
    exact h3 extra

/-- C18 (amended) at a concrete input: on `svcShared`, where "svc" depends on "Dep" only, the
resolution of "svc" ends. -/
theorem terminates_without_cycle_witness :
    WellFounded (fun p k => DependsOn svcShared k p) ∧
    (∃ fuel, ∀ extra, Reentrant.Make (Reentrant.ofPure exampleHost) (fuel + extra) svcShared [] (.str "svc") [] ≠
      .diverge) ∧
    (∃ fuel, ∀ extra, Reentrant.Get (Reentrant.ofPure exampleHost) (fuel + extra) svcShared [] (.str "svc") ≠
      .diverge) :=
  ⟨svcShared_wellFounded,
    (terminates_without_cycle exampleHost svcShared svcShared_wellFounded [] (.str "svc")
      []).1,
    (terminates_without_cycle exampleHost svcShared svcShared_wellFounded [] (.str "svc")
      []).2.1⟩

/-- C18 as stated fails: a call need not end although the dependency relation has no
cycle. First: after `Bind("a", a)` and `Bind("b", b)`, where the body of `a` calls
`Get("b")` and the body of `b` calls `Get("a")`, neither function declares a parameter,
so the dependency relation is empty; yet `Make("a")` and `Get("a")` never end, whatever
the fuel. Second: after `Bind("s", forever)`, where `forever` never returns, the
dependency relation is empty and `Make("s")` never ends. -/
theorem terminates_without_cycle_counterexample :
    (Reentrant.runOps Reentrant.callingHost 1
        [.Bind (.str "a") (.func "a" []), .Bind (.str "b") (.func "b" [])] New [] =
        some (pingPong, []) ∧
      WellFounded (fun q k => DependsOn pingPong k q) ∧
      (∀ fuel, Reentrant.Make Reentrant.callingHost fuel pingPong [] (.str "a") [] =
        .diverge) ∧
      (∀ fuel, Reentrant.Get Reentrant.callingHost fuel pingPong [] (.str "a") =
        .diverge)) ∧
    (Reentrant.runOps Reentrant.callingHost 1
        [.Bind (.str "s") (.func "forever" [])] New [] = some (foreverBound, []) ∧
      WellFounded (fun q k => DependsOn foreverBound k q) ∧
      (∀ fuel, Reentrant.Make Reentrant.callingHost fuel foreverBound [] (.str "s") [] =
        .diverge)) :=
  ⟨⟨rfl, pingPong_wellFounded, fun fuel => (pingPong_never_ends fuel []).1,
      fun fuel => by
        unfold Reentrant.Get
        rw [(pingPong_never_ends fuel []).1]⟩,
    ⟨rfl, foreverBound_wellFounded, fun fuel => foreverBound_never_ends fuel []⟩⟩

/-! ## C19: the lookup follows exactly one alias hop -/

/-- C19: for every container state and every abstract `A` with key `k`: when the alias
table maps `k` to `t`, `getBinding` returns the binding stored under `t` and reports
`BindingMissingError{A}` when there is none, whatever is stored under `k` itself and
whatever the alias table holds under `t`; when the alias table has no entry under `k`,
it returns the binding stored under `k` and reports `BindingMissingError{A}` when
there is none. So the error is reported exactly when that single read finds nothing. -/
theorem getBinding_one_hop (c : Container) (A : Value) :
    (∀ t, c.aliases (utils.GetKey A) = some t →
      (∀ b, c.bindings t = some b → getBinding c A = .ok b) ∧
      (c.bindings t = none → getBinding c A = .error (.BindingMissingError A))) ∧
    (c.aliases (utils.GetKey A) = none →
      (∀ b, c.bindings (utils.GetKey A) = some b → getBinding c A = .ok b) ∧
      (c.bindings (utils.GetKey A) = none →
        getBinding c A = .error (.BindingMissingError A))) ∧
    (∀ e, getBinding c A = .error e →
      e = .BindingMissingError A ∧
      c.bindings (match c.aliases (utils.GetKey A) with
        | some t => t
        | none => utils.GetKey A) = none) := by
  refine ⟨?_, ?_, ?_⟩
  · intro t ht
    constructor
    · intro b hb
      exact getBinding_aliased c A t b ht hb
    · intro hb
      rw [getBinding_error_iff, ht]
      exact ⟨hb, rfl⟩
  · intro ha
    constructor
    · intro b hb
      exact getBinding_direct c A b ha hb
    · intro hb
      rw [getBinding_error_iff, ha]
      exact ⟨hb, rfl⟩
  · intro e he
    rw [getBinding_error_iff] at he
    exact ⟨he.2, he.1⟩

/-- C19 at a concrete input: "X" is an alias of "Z", "Z" an alias of "W", and both "W"
and "X" have an entry of their own. The lookup of "X" reads only the entry under "Z"
and finds nothing; the lookup of "Z" finds the binding of "W"; the lookup of "W" finds
its own. -/
theorem getBinding_one_hop_witness :
    aliasOfAliasBound.aliases "X" = some "Z" ∧
    aliasOfAliasBound.bindings "X" = some ⟨.int 2, false⟩ ∧
    aliasOfAliasBound.aliases "Z" = some "W" ∧
    getBinding aliasOfAliasBound (.str "X") = .error (.BindingMissingError (.str "X")) ∧
    getBinding aliasOfAliasBound (.str "Z") = .ok ⟨.int 1, false⟩ ∧
    getBinding aliasOfAliasBound (.str "W") = .ok ⟨.int 1, false⟩ :=
  ⟨rfl, rfl, rfl,
    ((getBinding_one_hop aliasOfAliasBound (.str "X")).1 "Z" rfl).2 rfl,
    ((getBinding_one_hop aliasOfAliasBound (.str "Z")).1 "W" rfl).1 _ rfl,
    ((getBinding_one_hop aliasOfAliasBound (.str "W")).2.1 rfl).1 _ rfl⟩

/-! ## C20: the shared cache is keyed by the requested abstract -/

end Akisa
